import Mathlib

/-!
# Simple-Multiplayer scenario merge engine: a shallow embedding

This file embeds the scenario merge & convergence code of the
Simple-Multiplayer server (`Source/server.py`, with the ScanCoverage
helpers from `Server/serverold.py`) and proves properties of it.

Modelling conventions, used consistently below:

* Python `float` values are modelled as `Rat`.  Every numeric value the
  merge algorithms manipulate originates from a short decimal literal and
  is only combined with `+`, `-`, `max`, `min`, so the rational model
  agrees with IEEE doubles on all inputs considered here.
* Text files are modelled by their list of lines (`List String`).  Every
  consumer in the source immediately calls `splitlines()` (or iterates
  file lines), and every producer joins lines with `"\n"`; the join/split
  round trip is the identity on newline-free lines, so the line list is
  the faithful state.  Whole-file string reads are recovered with
  `fileString`.
* `str.splitlines` is modelled as splitting on `'\n'` (the only line
  terminator the server itself ever writes), with Python's rule that a
  trailing newline does not yield a final empty line (`pyLines`).
* Python string primitives (`strip`, `split`, `startswith`, ...) are
  implemented on character lists (see below) so that the kernel can
  evaluate them; they agree with the library functions.
* Brace-delimited blocks are kept as their line lists (`List String`);
  the source keeps them as joined strings and re-splits them at each use,
  which is the identity on the line list.
-/

namespace SimpleMultiplayer

/-! ## Small string helpers shared by every merger

`String.trim`, `String.splitOn` and `String.startsWith` do not reduce
inside the Lean kernel (their loops recurse on byte positions), so the
Python string primitives are implemented here on character lists —
observably the same functions, and fully computable by `decide`. -/

/-- A character Python's `str.strip` removes. -/
def wsChar (c : Char) : Bool := c.isWhitespace

/-- Python `str.strip` on a character list. -/
def trimChars (cs : List Char) : List Char :=
  ((cs.dropWhile wsChar).reverse.dropWhile wsChar).reverse

/-- Python `s.strip()`. -/
def sTrim (s : String) : String := String.mk (trimChars s.toList)

/-- Python `s.lstrip()`. -/
def sTrimLeft (s : String) : String := String.mk (s.toList.dropWhile wsChar)

/-- Python `s.rstrip()`. -/
def sTrimRight (s : String) : String :=
  String.mk (s.toList.reverse.dropWhile wsChar).reverse

/-- Python `s.startswith(pre)`. -/
def sStartsWith (s pre : String) : Bool := pre.toList.isPrefixOf s.toList

/-- Python `s.endswith(suf)`. -/
def sEndsWith (s suf : String) : Bool := suf.toList.isSuffixOf s.toList

/-- Split a character list on a separator character; always at least one
(possibly empty) chunk, like Python `str.split(sep)`. -/
def splitOnChar (sep : Char) (cs : List Char) : List (List Char) :=
  cs.foldr
    (fun c acc =>
      match acc with
      | [] => [[c]]
      | g :: gs => if c = sep then [] :: g :: gs else (c :: g) :: gs)
    [[]]

/-- Python `s.split(sep)` for a one-character separator (the only kind
the server uses: `'='` and `'\n'`). -/
def sSplitOn (sep : Char) (s : String) : List String :=
  (splitOnChar sep s.toList).map String.mk

/-- Python `splitlines` for `'\n'`-separated text: a trailing newline does
not produce a final empty line, but interior blank lines are kept. -/
def pyLines (s : String) : List String :=
  if s = "" then []
  else
    let parts := sSplitOn '\n' s
    if parts.getLast? = some "" then parts.dropLast else parts

/-- A line that Python `str.strip` would reduce to the empty string. -/
def isWsLine (l : String) : Bool := sTrim l = ""

/-- `text.strip()` applied to a `'\n'`-join of lines, expressed on the
line list: leading and trailing all-whitespace lines disappear and the
boundary lines lose their outer whitespace. -/
def stripLines (ls : List String) : List String :=
  match ls.dropWhile isWsLine with
  | [] => []
  | h :: t =>
    match ((sTrimLeft h :: t).reverse.dropWhile isWsLine) with
    | [] => []
    | h' :: t' => (sTrimRight h' :: t').reverse

/-- The string a whole-file `read()` returns for a stored line list (the
server always terminates files with a newline). -/
def fileString (ls : List String) : String :=
  String.intercalate "\n" ls ++ "\n"

/-- Python `s.split("=", 1)[1]`: everything after the first `'='`
(callers only use this on lines known to contain an `'='`). -/
def afterFirstEq (s : String) : String :=
  match s.toList.dropWhile (· ≠ '=') with
  | [] => ""
  | _ :: rest => String.mk rest

/-- Python `s.split('=')[-1]`: the text after the last `'='` (the whole
string when there is none). -/
def afterLastEq (s : String) : String :=
  (sSplitOn '=' s).getLastD ""

/-- Python `s.split("=")[1]` guarded against `IndexError`: the segment
between the first and second `'='`, if a first `'='` exists. -/
def secondEqSeg? (s : String) : Option String :=
  (sSplitOn '=' s).get? 1

/-! ## Python numeric conversions -/

/-- Digits-to-number accumulator used by `pyFloat?`. -/
def digitsToNat (cs : List Char) : Nat :=
  cs.foldl (fun a c => a * 10 + (c.toNat - '0'.toNat)) 0

/-- Python `float(s)` restricted to plain decimal literals
(`[+-]? digits [. digits]`, either part optional but not both): `none`
models the `ValueError` the server code catches.  Exponent, infinity and
underscore forms never occur in this system's data and are not modelled. -/
def pyFloat? (s : String) : Option Rat :=
  let t := trimChars s.toList
  let cs := if t.head? = some '-' ∨ t.head? = some '+' then t.tail else t
  let ip := cs.takeWhile (· ≠ '.')
  let rest := cs.dropWhile (· ≠ '.')
  let fp := rest.tail
  if ip.all Char.isDigit && fp.all Char.isDigit && !(ip.isEmpty && fp.isEmpty)
      && !(fp.contains '.') && (rest.isEmpty || rest.head? = some '.') then
    -- ±(ip + fp/10^k) assembled as one quotient, so the kernel can reduce it
    let mag : Int := digitsToNat ip * 10 ^ fp.length + digitsToNat fp
    some (mkRat (if t.head? = some '-' then -mag else mag) (10 ^ fp.length))
  else none

/-- Exact rational addition via `mkRat`; equals `HAdd.hAdd` on `Rat`
(`pyAdd_eq` below) but stays reducible inside the kernel. -/
def pyAdd (a b : Rat) : Rat :=
  mkRat (a.num * b.den + b.num * a.den) (a.den * b.den)

/-- Exact rational subtraction via `mkRat`; equals `HSub.hSub` on `Rat`
(`pySub_eq` below) but stays reducible inside the kernel. -/
def pySub (a b : Rat) : Rat :=
  mkRat (a.num * b.den - b.num * a.den) (a.den * b.den)

/-- Insert a decimal point `k` places from the right of the decimal digit
string of `n`, left-padding with zeros so an integer digit remains. -/
def dotString (n k : Nat) : String :=
  let ds := (toString n).toList
  let cs := List.replicate (k + 1 - ds.length) '0' ++ ds
  String.mk (cs.take (cs.length - k)) ++ "." ++ String.mk (cs.drop (cs.length - k))

/-- The smallest `k ≤ fuel` for which `q * 10^k` is an integer, i.e. for
which the reduced denominator divides `10^k`. -/
def decExp? (den : Nat) : Nat → Option Nat
  | 0 => if den = 1 then some 0 else none
  | n + 1 =>
    match decExp? den n with
    | some k => some k
    | none => if 10 ^ (n + 1) % den = 0 then some (n + 1) else none

/-- Python `str(float)` for values with a terminating decimal expansion
(the only values this system produces): the shortest decimal digit string,
with at least one fractional digit, e.g. `str(35.0) = "35.0"`. -/
def pyFloatRepr (q : Rat) : String :=
  let sign := if q.num < 0 then "-" else ""
  match decExp? q.den 40 with
  | some 0 => sign ++ toString q.num.natAbs ++ ".0"
  | some k => sign ++ dotString (q.num.natAbs * 10 ^ k / q.den) k
  | none => sign ++ toString q.num.natAbs ++ "r" ++ toString q.den

/-- Python `f"{x:.6f}"`: fixed six fractional digits (rounding to nearest,
exact at every value this system produces). -/
def format6 (q : Rat) : String :=
  let sign := if q.num < 0 then "-" else ""
  let n := (2 * q.num.natAbs * 1000000 + q.den) / (2 * q.den)
  sign ++ dotString n 6

/-- `pyFloat?` recovers `pyFloatRepr`'s output; holds for every value with
a terminating decimal expansion and is stated as a decidable side
condition where merge outputs are re-parsed from disk. -/
def ReprRoundtrip (q : Rat) : Prop := pyFloat? (pyFloatRepr q) = some q

instance (q : Rat) : Decidable (ReprRoundtrip q) := by
  unfold ReprRoundtrip; infer_instance

/-! ## Insertion-ordered association lists (Python `dict`) -/

/-- Python `d[k] = v`: replace in place if the key exists, else append. -/
def assocUpd {α : Type} (m : List (String × α)) (k : String) (v : α) :
    List (String × α) :=
  match m with
  | [] => [(k, v)]
  | (k', v') :: r => if k' = k then (k, v) :: r else (k', v') :: assocUpd r k v

/-- Python `d.get(k)`. -/
def assocFind? {α : Type} (m : List (String × α)) (k : String) : Option α :=
  match m with
  | [] => none
  | (k', v') :: r => if k' = k then some v' else assocFind? r k

/-! ## The record store of one save

One scenario folder, `scenarios/<save>/`: the three merged module files
the claims are about.  `none` is an absent file. -/

structure SaveState where
  techTree : Option (List String)
  sciencePoints : Option (List String)
  scienceArchives : Option (List String)
deriving DecidableEq, Repr

/-- The empty scenario folder. -/
def SaveState.empty : SaveState := ⟨none, none, none⟩

/-- Outcome of an upload request: `ok` is `("OK", 200)` (or the branch's
success string), `badRequest` a 400 with its message. -/
inductive HttpResp where
  | ok
  | badRequest (msg : String)
deriving DecidableEq, Repr

/-! ## SciencePoints upload (`upload_scenario`, SciencePoints branch) -/

/-- `float(f.read().strip().split('=')[-1])` on a stored file. -/
def readPointsValue? (ls : List String) : Option Rat :=
  pyFloat? (afterLastEq (sTrim (fileString ls)))

/-- `float(new_data.strip().split('=')[-1])` on the (already stripped)
request payload. -/
def spPayloadVal? (payload : String) : Option Rat :=
  pyFloat? (afterLastEq (sTrim (sTrim payload)))

/-- The single line `f"sci = {new_value}\n"` the branch writes. -/
def spLine (v : Rat) : List String := ["sci = " ++ pyFloatRepr v]

/-- POST `/scenarios/<save>/SciencePoints`: parse the payload's value
(after the last `=`); reject unparsable payloads with a 400; store on
first upload, on unparsable stored value, or when strictly greater than
the stored value; otherwise leave the file alone and succeed. -/
def uploadSciencePoints (st : SaveState) (payload : String) : SaveState × HttpResp :=
  match spPayloadVal? payload with
  | none => (st, .badRequest "Invalid format")
  | some newValue =>
    match st.sciencePoints with
    | some ls =>
      match readPointsValue? ls with
      | some oldValue =>
        if newValue > oldValue then
          ({ st with sciencePoints := some (spLine newValue) }, .ok)
        else (st, .ok)
      | none => ({ st with sciencePoints := some (spLine newValue) }, .ok)
    | none => ({ st with sciencePoints := some (spLine newValue) }, .ok)

/-! ## TechTree upload (`upload_scenario`, TechTree branch) -/

/-- Fold state of `extract_tech_ids_and_costs`. -/
structure TechScan where
  ids : List String
  costs : List (String × Rat)
  cur : Option String

/-- One line of `extract_tech_ids_and_costs`: header lines reset the
current id, `id = ` lines record it, `cost = ` lines attach a parsed cost
to the current (truthy) id. -/
def techScanStep (a : TechScan) (line : String) : TechScan :=
  let l := sTrim line
  if sStartsWith l "Tech" then { a with cur := none }
  else if sStartsWith l "id = " then
    let i := sTrim (afterFirstEq l)
    { a with cur := some i, ids := a.ids ++ [i] }
  else if sStartsWith l "cost = " then
    match a.cur with
    | some i =>
      if i = "" then a
      else
        match pyFloat? (sTrim (afterFirstEq l)) with
        | some v => { a with costs := assocUpd a.costs i v }
        | none => a
    | none => a
  else a

/-- `extract_tech_ids_and_costs` applied to a list of lines. -/
def techIdsAndCosts (ls : List String) : List String × List (String × Rat) :=
  let r := ls.foldl techScanStep ⟨[], [], none⟩
  (r.ids, r.costs)

/-- `extract_tech_ids_and_costs(text)`: all `id = ` values (a set in the
source, used only for membership) and the per-id cost map. -/
def extractTechIdsAndCosts (text : String) : List String × List (String × Rat) :=
  techIdsAndCosts (pyLines text)

/-- Fold state of `extract_tech_blocks`. -/
structure BlockScan where
  blocks : List (List String)
  cur : List String
  inside : Bool

/-- One line of `extract_tech_blocks`: a `Tech` header starts a fresh
block (discarding any partial one), lines inside accumulate, a bare `}`
closes the block. -/
def techBlockStep (a : BlockScan) (line : String) : BlockScan :=
  if sStartsWith (sTrim line) "Tech" then { a with inside := true, cur := [line] }
  else if a.inside then
    let cur := a.cur ++ [line]
    if sTrim line = "\x7d" then { blocks := a.blocks ++ [cur], cur := [], inside := false }
    else { a with cur := cur }
  else a

/-- `extract_tech_blocks` applied to a list of lines. -/
def techBlocksOfLines (ls : List String) : List (List String) :=
  (ls.foldl techBlockStep ⟨[], [], false⟩).blocks

/-- `extract_tech_blocks(text)`, blocks kept as their line lists. -/
def extractTechBlocks (text : String) : List (List String) :=
  techBlocksOfLines (pyLines text)

/-- The merge loop's per-block id: the first line starting (stripped)
with `id = `, its text after the first `=`, stripped. -/
def techBlockId? (block : List String) : Option String :=
  match block.find? (fun l => sStartsWith (sTrim l) "id = ") with
  | some l => some (sTrim (afterFirstEq l))
  | none => none

/-- The merge loop's acceptance test (`if block_id and block_id not in
existing_ids`): a truthy id that is not among the ids parsed from the
existing converged state. -/
def techAccepted (existingIds : List String) (block : List String) : Bool :=
  match techBlockId? block with
  | some bid => bid ≠ "" && !(existingIds.contains bid)
  | none => false

/-- The cost charged for an accepted block
(`new_costs.get(block_id, 0.0)`). -/
def techBlockCost (newCosts : List (String × Rat)) (block : List String) : Rat :=
  match techBlockId? block with
  | some bid => (assocFind? newCosts bid).getD 0
  | none => 0

/-- One iteration of the TechTree merge loop: append the block and add
its cost exactly when it is accepted. -/
def techMergeStep (existingIds : List String) (newCosts : List (String × Rat))
    (acc : List (List String) × Rat) (block : List String) :
    List (List String) × Rat :=
  if techAccepted existingIds block then
    (acc.1 ++ [block], pyAdd acc.2 (techBlockCost newCosts block))
  else acc

/-- The TechTree merge loop: start from the existing file's blocks,
append each accepted new block, and accumulate the accepted ids' costs. -/
def mergeTechBlocks (exLines : List String) (newData : String) :
    List (List String) × Rat :=
  let existingIds := (techIdsAndCosts exLines).1
  let newCosts := (extractTechIdsAndCosts newData).2
  (extractTechBlocks newData).foldl (techMergeStep existingIds newCosts)
    (techBlocksOfLines exLines, 0)

/-- `"\n".join(merged_blocks).strip() + "\n"` as a line list. -/
def joinedBlockFile (blocks : List (List String)) : List String :=
  let ls := stripLines (List.flatten blocks)
  if ls.isEmpty then [""] else ls

/-- POST `/scenarios/<save>/TechTree`: first upload stores the payload
verbatim; otherwise merge new blocks whose id is absent from the existing
state, rewrite the file, and decrement SciencePoints by the accepted
costs (floored at zero, skipped silently when the points file is missing
or unparsable). -/
def uploadTechTree (st : SaveState) (payload : String) : SaveState × HttpResp :=
  let newData := sTrim payload
  match st.techTree with
  | none => ({ st with techTree := some (pyLines newData) }, .ok)
  | some exLines =>
    let m := mergeTechBlocks exLines newData
    let tt := joinedBlockFile m.1
    let newPoints : Option (List String) :=
      match st.sciencePoints with
      | none => st.sciencePoints
      | some pls =>
        match readPointsValue? pls with
        | none => st.sciencePoints
        | some cur => some ["sci = " ++ format6 (max 0 (pySub cur m.2))]
    ({ st with techTree := some tt, sciencePoints := newPoints }, .ok)

/-! ## SciencePoints download (`download_scenario`, SciencePoints branch) -/

/-- A `sci =` line's contribution: the parsed segment between the first
and second `=`, when it parses (`try`/`except` skips the rest). -/
def sciLineVal? (l : String) : Option Rat :=
  if sStartsWith (sTrim l) "sci =" then
    match secondEqSeg? (sTrim l) with
    | some seg => pyFloat? seg
    | none => none
  else none

/-- A `cost =` line's contribution, same shape as `sciLineVal?`. -/
def costLineVal? (l : String) : Option Rat :=
  if sStartsWith (sTrim l) "cost =" then
    match secondEqSeg? (sTrim l) with
    | some seg => pyFloat? seg
    | none => none
  else none

/-- Accumulate the parsed values of a file's matching lines. -/
def lineSum (val? : String → Option Rat) (ls : List String) : Rat :=
  ls.foldl (fun acc l => match val? l with | some v => pyAdd acc v | none => acc) 0

/-- GET `/scenarios/<save>/SciencePoints`: recompute
`max(0, Σ sci - Σ cost)` from ScienceArchives.txt and TechTree.txt
(missing files contribute nothing) and render it with six decimals. -/
def downloadSciencePoints (st : SaveState) : String :=
  let totalScience := lineSum sciLineVal? (st.scienceArchives.getD [])
  let totalCost := lineSum costLineVal? (st.techTree.getD [])
  "sci = " ++ format6 (max 0 (pySub totalScience totalCost)) ++ "\n"

/-! ## ScienceArchives upload (`upload_scenario`, ScienceArchives branch) -/

/-- One line of `extract_science_blocks`: a `Science` header pushes any
open block and starts a new one, accumulated lines are right-stripped,
and a bare `}` closes the block. -/
def sciBlockStep (a : BlockScan) (line : String) : BlockScan :=
  let s := sTrim line
  if sStartsWith s "Science" then
    let blocks := if a.inside ∧ ¬ a.cur.isEmpty then a.blocks ++ [a.cur] else a.blocks
    { blocks := blocks, cur := [sTrimRight line], inside := true }
  else if a.inside then
    let cur := a.cur ++ [sTrimRight line]
    if s = "\x7d" then { blocks := a.blocks ++ [cur], cur := [], inside := false }
    else { a with cur := cur }
  else a

/-- `extract_science_blocks` applied to a list of lines: a trailing
unclosed block is kept. -/
def sciBlocksOfLines (ls : List String) : List (List String) :=
  let r := ls.foldl sciBlockStep ⟨[], [], false⟩
  if r.cur.isEmpty then r.blocks else r.blocks ++ [r.cur]

/-- `extract_science_blocks(text)`: the text is stripped first. -/
def extractScienceBlocks (text : String) : List (List String) :=
  sciBlocksOfLines (pyLines (sTrim text))

/-- `parse_block(block)`: the last `id =` / `sci =` / `cap =` line wins;
numeric parse failures leave the previous value (`try`/`except: pass`). -/
def parseScienceBlock (block : List String) :
    Option String × Option Rat × Option Rat :=
  block.foldl
    (fun acc ln =>
      let s := sTrim ln
      if sStartsWith s "id =" then (some (sTrim (afterFirstEq s)), acc.2.1, acc.2.2)
      else if sStartsWith s "sci =" then
        match pyFloat? (sTrim (afterFirstEq s)) with
        | some v => (acc.1, some v, acc.2.2)
        | none => acc
      else if sStartsWith s "cap =" then
        match pyFloat? (sTrim (afterFirstEq s)) with
        | some v => (acc.1, acc.2.1, some v)
        | none => acc
      else acc)
    (none, none, none)

/-- Leading whitespace of a line (`ln[:len(ln) - len(ln.lstrip())]`). -/
def lineIndent (ln : String) : String :=
  String.mk (ln.toList.takeWhile wsChar)

/-- The shared shape of `replace_sci` / `_replace_map`: rewrite the first
line passing `test` in place, flagging whether one was found. -/
def rfStep (test : String → Bool) (repl : String → String)
    (acc : List String × Bool) (ln : String) : List String × Bool :=
  if ¬ acc.2 ∧ test ln then (acc.1 ++ [repl ln], true)
  else (acc.1 ++ [ln], acc.2)

def replaceFirst (test : String → Bool) (repl : String → String)
    (ls : List String) : List String × Bool :=
  ls.foldl (rfStep test repl) ([], false)

/-- Insert a line immediately before the last `}` line, or do nothing
when no such line exists (mirrors the reverse scan in `replace_sci`). -/
def insertBeforeLastClose (ls : List String) (x : String) : List String :=
  match ls.reverse.findIdx? (fun l => sTrim l = "\x7d") with
  | none => ls
  | some i =>
    let p := ls.length - 1 - i
    ls.take p ++ [x] ++ ls.drop p

/-- `replace_sci(block, new_sci)`: rewrite the first `sci =` line in place
keeping its indentation; if absent, insert one before the closing brace. -/
def replaceSci (block : List String) (newSci : Rat) : List String :=
  let r := replaceFirst (fun ln => sStartsWith (sTrim ln) "sci =")
    (fun ln => lineIndent ln ++ "sci = " ++ pyFloatRepr newSci) block
  if r.2 then r.1
  else insertBeforeLastClose r.1 ("    sci = " ++ pyFloatRepr newSci)

/-- A merged subject: stored raw block plus its parsed `sci` and `cap`. -/
structure SciEntry where
  raw : List String
  sci : Option Rat
  cap : Option Rat
deriving DecidableEq, Repr

/-- Populate `merged_map` from the existing converged file (blocks with a
falsy id are dropped). -/
def loadScienceMap (blocks : List (List String)) : List (String × SciEntry) :=
  blocks.foldl
    (fun m b =>
      match parseScienceBlock b with
      | (some sid, sci, cap) =>
        if sid = "" then m else assocUpd m sid ⟨b, sci, cap⟩
      | (none, _, _) => m)
    []

/-- The body of the ScienceArchives merge loop: prefer the upload's cap
else the previous one, raise `sci` to the larger observed value, clamp to
the final cap, choose the base block, and rewrite its `sci`. -/
def mergedSciEntry (b : List String) (sci cap : Option Rat)
    (found : Option SciEntry) : SciEntry :=
  let prev := found.getD ⟨b, none, none⟩
  let capFinal := match cap with | some c => some c | none => prev.cap
  let best0 := prev.sci.getD 0
  let best1 := match sci with
    | some s => if s > best0 then s else best0
    | none => best0
  let bestSci := match capFinal with | some c => min best1 c | none => best1
  let baseBlock := match sci with
    | some s =>
      match prev.sci with
      | none => b
      | some p => if s ≥ p then b else prev.raw
    | none => prev.raw
  ⟨replaceSci baseBlock bestSci, some bestSci, capFinal⟩

/-- One iteration of the ScienceArchives merge loop over one upload
block: blocks with no (or an empty) id are skipped. -/
def sciMergeStep (m : List (String × SciEntry)) (b : List String) :
    List (String × SciEntry) :=
  match parseScienceBlock b with
  | (none, _, _) => m
  | (some sid, sci, cap) =>
    if sid = "" then m
    else assocUpd m sid (mergedSciEntry b sci cap (assocFind? m sid))

/-- The whole merge: load the existing converged state, then fold the
upload's blocks through `sciMergeStep`. -/
def mergeScienceMap (existing : Option (List String)) (newData : String) :
    List (String × SciEntry) :=
  let m0 := match existing with
    | some ls => loadScienceMap (sciBlocksOfLines (stripLines ls))
    | none => []
  (extractScienceBlocks newData).foldl sciMergeStep m0

/-- The blocks written back: each merged raw block, in ascending id
order (`sorted(merged_map.keys())`). -/
def sortedScienceRaws (m : List (String × SciEntry)) : List (List String) :=
  (List.insertionSort (· ≤ ·) (m.map Prod.fst)).filterMap
    (fun k => (assocFind? m k).map SciEntry.raw)

/-- POST `/scenarios/<save>/ScienceArchives`. -/
def uploadScienceArchives (st : SaveState) (payload : String) :
    SaveState × HttpResp :=
  let m := mergeScienceMap st.scienceArchives (sTrim payload)
  ({ st with scienceArchives := some (List.flatten (sortedScienceRaws m)) }, .ok)

/-! ## SCANcontroller upload (`_normalize_scansat` and its endpoint)

These operate on raw characters (`str.find` plus a brace-depth walk), so
they are embedded at string level. -/

/-- Python `s.find(pat, start)`: the first index `≥ start` where `pat`
occurs (as an `Option`). -/
def findSub? (s pat : List Char) (start : Nat) : Option Nat :=
  (List.range (s.length + 1)).find? (fun i => start ≤ i && pat.isPrefixOf (s.drop i))

/-- Python `sub in s`. -/
def containsSub (s pat : String) : Bool :=
  (findSub? s.toList pat.toList 0).isSome

/-- The `while k < len(s)` walk of `_find_block_at`: depth goes up at
`{`, down at `}`, and the index of the brace closing depth to zero is
returned. -/
def braceLoop : List Char → Nat → Int → Option Nat
  | [], _, _ => none
  | c :: rest, k, depth =>
    let depth' : Int :=
      if c = '\x7b' then depth + 1
      else if c = '\x7d' then depth - 1
      else depth
    if c = '\x7d' ∧ depth' = 0 then some k else braceLoop rest (k + 1) depth'

/-- `_find_block_at(s, hdr, start)`: the text from the first occurrence of
`hdr` at or after `start` through the brace matching the first `{` after
it, together with the index just past that brace. -/
def findBlockAt (s hdr : String) (start : Nat) : Option (String × Nat) :=
  let cs := s.toList
  match findSub? cs hdr.toList start with
  | none => none
  | some i =>
    match findSub? cs ['\x7b'] i with
    | none => none
    | some j =>
      match braceLoop (cs.drop j) j 0 with
      | some k => some (String.mk ((cs.drop i).take (k + 1 - i)), k + 1)
      | none => none

/-- The canonical empty node `_normalize_scansat` falls back to. -/
def emptyScanNode : String := "SCANcontroller\n\x7b\n\x7d\n"

/-- Ensure a trailing newline, as the source does on each return path. -/
def ensureNl (s : String) : String :=
  if sEndsWith s "\n" then s else s ++ "\n"

/-- The matched `SCENARIO` block's rewrite: replace the header line by
`SCANcontroller` and drop `name =` / `scene =` lines. -/
def scenStripped (scen : String) : List String :=
  let lines := match pyLines scen with
    | [] => ([] : List String)
    | _ :: t => "SCANcontroller" :: t
  lines.filter
    (fun ln =>
      let t := sTrim ln
      ¬ (sStartsWith t "name =" ∨ sStartsWith t "scene ="))

/-- The `SCENARIO`-scanning loop of `_normalize_scansat`: look for a
`SCENARIO` block containing both `name` and `SCANcontroller`, rewrite it
with `scenStripped`; fall back to the empty node.  Fuel bounds the loop
(the scan index strictly increases). -/
def scenLoop (s : String) : Nat → Nat → String
  | _, 0 => emptyScanNode
  | idx, fuel + 1 =>
    match findBlockAt s "SCENARIO" idx with
    | none => emptyScanNode
    | some (scen, idx') =>
      if containsSub scen "name" ∧ containsSub scen "SCANcontroller" then
        ensureNl (String.intercalate "\n" (scenStripped scen))
      else scenLoop s idx' fuel

/-- `text.replace("\r\n", "\n")` on characters. -/
def crlfToLf : List Char → List Char
  | [] => []
  | '\r' :: '\n' :: rest => '\n' :: crlfToLf rest
  | c :: rest => c :: crlfToLf rest

/-- `_normalize_scansat(text)`: a bare `SCANcontroller` brace block if the
substring search finds one, else the `SCENARIO` rewrite, else the empty
node. -/
def normalizeScansat (text : String) : String :=
  let s := String.mk (crlfToLf text.toList)
  match findBlockAt s "SCANcontroller" 0 with
  | some (blk, _) => ensureNl blk
  | none => scenLoop s 0 (s.toList.length + 1)

/-- Response of a SCANcontroller upload. -/
inductive ScanResp where
  | unchanged
  | written
deriving DecidableEq, Repr

/-- POST `/scenarios/<save>/SCANcontroller` for a resolved user: normalize
the upload and the stored snapshot; answer `UNCHANGED` without touching
the file when they agree, else write the normalized upload. -/
def uploadScanController (oldFile : Option String) (payload : String) :
    Option String × ScanResp :=
  let newNorm := normalizeScansat (sTrim payload)
  match oldFile.map normalizeScansat with
  | some o =>
    if o = newNorm then (oldFile, .unchanged) else (some newNorm, .written)
  | none => (some newNorm, .written)

/-! ## ScanCoverage map union (`serverold.py`: `_map_union` and friends) -/

/-- The standard base64 alphabet value of a character. -/
def b64CharVal? (c : Char) : Option Nat :=
  if 65 ≤ c.toNat ∧ c.toNat ≤ 90 then some (c.toNat - 65)
  else if 97 ≤ c.toNat ∧ c.toNat ≤ 122 then some (c.toNat - 97 + 26)
  else if 48 ≤ c.toNat ∧ c.toNat ≤ 57 then some (c.toNat - 48 + 52)
  else if c = '+' then some 62
  else if c = '/' then some 63
  else none

/-- The character for a sextet value. -/
def b64Chr (v : Nat) : Char :=
  ("ABCDEFGHIJKLMNOPQRSTUVWXYZabcdefghijklmnopqrstuvwxyz0123456789+/".toList).getD v 'A'

/-- Decode four-character base64 groups into bytes; `=` padding is only
legal at the very end (Python's `b64decode` raises otherwise, which the
caller's `except` turns into the fallback). -/
def b64DecodeGroups : List Char → Option (List Nat)
  | [] => some []
  | c1 :: c2 :: c3 :: c4 :: rest =>
    match b64CharVal? c1, b64CharVal? c2 with
    | some a, some b =>
      if c3 = '=' then
        if c4 = '=' ∧ rest = [] then some [a * 4 + b / 16] else none
      else
        match b64CharVal? c3 with
        | some c =>
          if c4 = '=' then
            if rest = [] then some [a * 4 + b / 16, b % 16 * 16 + c / 4] else none
          else
            match b64CharVal? c4 with
            | some d =>
              match b64DecodeGroups rest with
              | some tl => some ([a * 4 + b / 16, b % 16 * 16 + c / 4, c % 4 * 64 + d] ++ tl)
              | none => none
            | none => none
        | none => none
    | _, _ => none
  | _ => none

/-- `_b64decode(s)`: strip, re-pad to a multiple of four, decode. -/
def b64Decode? (s : String) : Option (List Nat) :=
  let t := trimChars s.toList
  b64DecodeGroups (t ++ List.replicate ((4 - t.length % 4) % 4) '=')

/-- Standard base64 encoding of a byte list, with `=` padding kept. -/
def b64EncodeBytes : List Nat → List Char
  | [] => []
  | [x] => [b64Chr (x / 4), b64Chr (x % 4 * 16), '=', '=']
  | [x, y] => [b64Chr (x / 4), b64Chr (x % 4 * 16 + y / 16), b64Chr (y % 16 * 4), '=']
  | x :: y :: z :: rest =>
    [b64Chr (x / 4), b64Chr (x % 4 * 16 + y / 16), b64Chr (y % 16 * 4 + z / 64),
      b64Chr (z % 64)] ++ b64EncodeBytes rest

/-- `_b64encode(b)`. -/
def b64Encode (bs : List Nat) : String := String.mk (b64EncodeBytes bs)

/-- The byte-level union: grow the shorter array with zero bytes to the
longer length, then byte-wise bitwise OR. -/
def mapUnionBytes (A B : List Nat) : List Nat :=
  let L := max A.length B.length
  List.zipWith (fun x y => x ||| y)
    (A ++ List.replicate (L - A.length) 0)
    (B ++ List.replicate (L - B.length) 0)

/-- Recursive formulation of `mapUnionBytes` (proved equal below): OR
position-wise, keeping the remainder of the longer list. -/
def orBytes : List Nat → List Nat → List Nat
  | [], ys => ys
  | x :: xs, [] => x :: xs
  | x :: xs, y :: ys => (x ||| y) :: orBytes xs ys

/-- `_map_union(a, b)`: decode both maps, OR them, re-encode; on any
decode failure fall back to the longer input string. -/
def mapUnion (a b : String) : String :=
  match b64Decode? a, b64Decode? b with
  | some A, some B => b64Encode (mapUnionBytes A B)
  | _, _ => if a.toList.length ≥ b.toList.length then a else b

/-- `_extract_map(block)`: the value of the first `Map =` line (blocks
kept as line lists, per the conventions above). -/
def extractMap (block : List String) : String :=
  match block.find? (fun ln => sStartsWith (sTrim ln) "Map =") with
  | some ln => sTrim (afterFirstEq (sTrim ln))
  | none => ""

/-- `_replace_map(block, new_map)`: rewrite the first `Map =` line keeping
indentation, or insert one before the closing brace. -/
def replaceMap (block : List String) (newMap : String) : List String :=
  let r := replaceFirst (fun ln => sStartsWith (sTrim ln) "Map =")
    (fun ln => lineIndent ln ++ "Map = " ++ newMap) block
  if r.2 then r.1 else insertBeforeLastClose r.1 ("    Map = " ++ newMap)

/-- `_merge_scansat`'s per-body fold for one body present in two user
files folded in order: the first file's block is kept and its map is
replaced by the union with the second file's map. -/
def foldBodyPair (blkA blkB : List String) : List String :=
  replaceMap blkA (mapUnion (extractMap blkA) (extractMap blkB))

/-! ## Vote coordinator (`vote_start` / `vote_cast` / `vote_cancel`) -/

/-- One `VOTES[k]` session record. -/
structure VoteSession where
  title : String
  requester : String
  cost : Rat
  votes : List (String × Bool)
  closed : Bool
  approved : Option Bool
  quorum : Nat
deriving DecidableEq, Repr

/-- `vote_start`: create/reset the session with a quorum of 1 when at
most one user is online, else 2 (`online_cnt` comes from the presence
tracker, an external collaborator modelled as an input). -/
def voteStart (onlineCount : Nat) (requester title : String) (cost : Rat) :
    VoteSession :=
  { title := title, requester := requester, cost := cost, votes := [],
    closed := false, approved := none,
    quorum := if onlineCount ≤ 1 then 1 else 2 }

/-- Outcome of a `cast`: `ok` or the 400 `'No open vote'`. -/
inductive CastResp where
  | ok
  | noOpenVote
deriving DecidableEq, Repr

/-- Yes tally of a ballot map. -/
def yesCount (votes : List (String × Bool)) : Nat :=
  votes.countP (fun p => p.2)

/-- No tally of a ballot map. -/
def noCount (votes : List (String × Bool)) : Nat :=
  votes.countP (fun p => ¬ p.2)

/-- `vote_cast`: reject when no session exists or it is closed; otherwise
record/overwrite the user's ballot and close with `approved = yes > no`
once the distinct-caster count reaches the quorum. -/
def voteCast (s? : Option VoteSession) (user : String) (vote : Bool) :
    Option VoteSession × CastResp :=
  match s? with
  | none => (none, .noOpenVote)
  | some s =>
    if s.closed then (some s, .noOpenVote)
    else
      let votes := assocUpd s.votes user vote
      let yes := yesCount votes
      let n := yes + noCount votes
      if n ≥ s.quorum then
        (some { s with votes := votes, closed := true,
                       approved := some (decide (yes > noCount votes)) }, .ok)
      else (some { s with votes := votes }, .ok)

/-- `vote_cancel`: only the requester's cancel mutates the session, and
it sets `closed = True, approved = False` unconditionally. -/
def voteCancel (s? : Option VoteSession) (user : String) : Option VoteSession :=
  match s? with
  | none => none
  | some s =>
    if user = s.requester then some { s with closed := true, approved := some false }
    else some s

/-- A later operation against one session key, for the terminality claim. -/
inductive VoteOp where
  | cast (user : String) (vote : Bool)
  | cancel (user : String)
deriving DecidableEq, Repr

/-- Apply one operation to the session slot, discarding the response. -/
def applyVoteOp (s? : Option VoteSession) : VoteOp → Option VoteSession
  | .cast u v => (voteCast s? u v).1
  | .cancel u => voteCancel s? u

/-- Apply a sequence of operations left to right. -/
def applyVoteOps (s? : Option VoteSession) (ops : List VoteOp) : Option VoteSession :=
  ops.foldl applyVoteOp s?

/-! # Lemmas -/

/-! ## Association lists -/

theorem assocFind?_upd_self {α : Type} (m : List (String × α)) (k : String) (v : α) :
    assocFind? (assocUpd m k v) k = some v := by
  induction m with
  | nil => simp [assocUpd, assocFind?]
  | cons p r ih =>
    obtain ⟨k', v'⟩ := p
    by_cases h : k' = k <;> simp [assocUpd, assocFind?, h, ih]

theorem assocFind?_upd_ne {α : Type} (m : List (String × α)) (k k' : String) (v : α)
    (h : k' ≠ k) : assocFind? (assocUpd m k v) k' = assocFind? m k' := by
  have hkk : ¬ k = k' := fun hh => h hh.symm
  induction m with
  | nil => simp [assocUpd, assocFind?, hkk]
  | cons p r ih =>
    obtain ⟨k0, v0⟩ := p
    by_cases h0 : k0 = k
    · subst h0
      simp [assocUpd, assocFind?, hkk]
    · by_cases h1 : k0 = k'
      · subst h1
        simp [assocUpd, assocFind?, h0]
      · simp [assocUpd, assocFind?, h0, h1, ih]

theorem assocUpd_keys {α : Type} (m : List (String × α)) (k : String) (v : α) :
    (assocUpd m k v).map Prod.fst =
      if k ∈ m.map Prod.fst then m.map Prod.fst else m.map Prod.fst ++ [k] := by
  induction m with
  | nil => simp [assocUpd]
  | cons p r ih =>
    obtain ⟨k0, v0⟩ := p
    by_cases h0 : k0 = k
    · subst h0; simp [assocUpd]
    · have hk0 : ¬ k = k0 := fun hh => h0 hh.symm
      by_cases hk : k ∈ r.map Prod.fst <;>
        simp [assocUpd, h0, ih, hk, hk0]

theorem assocUpd_keys_mem {α : Type} (m : List (String × α)) (k : String) (v : α)
    (h : k ∈ m.map Prod.fst) : (assocUpd m k v).map Prod.fst = m.map Prod.fst := by
  simp [assocUpd_keys, h]

theorem assocUpd_self_eq {α : Type} (m : List (String × α)) (k : String) (v : α)
    (h : assocFind? m k = some v) : assocUpd m k v = m := by
  induction m with
  | nil => simp [assocFind?] at h
  | cons p r ih =>
    obtain ⟨k0, v0⟩ := p
    by_cases h0 : k0 = k
    · subst h0
      simp [assocFind?] at h
      simp [assocUpd, h]
    · simp [assocFind?, h0] at h
      simp [assocUpd, h0, ih h]

theorem assocFind?_mem_keys {α : Type} (m : List (String × α)) (k : String)
    (h : k ∈ m.map Prod.fst) : ∃ v, assocFind? m k = some v := by
  induction m with
  | nil => simp at h
  | cons p r ih =>
    obtain ⟨k0, v0⟩ := p
    by_cases h0 : k0 = k
    · exact ⟨v0, by simp [assocFind?, h0]⟩
    · have h' : k ∈ r.map Prod.fst := by
        rw [List.map_cons] at h
        rcases List.mem_cons.mp h with h1 | h1
        · exact absurd h1.symm h0
        · exact h1
      obtain ⟨v, hv⟩ := ih h'
      exact ⟨v, by simp [assocFind?, h0, hv]⟩

/-! ## Rational arithmetic bridges -/

theorem pyAdd_eq (a b : Rat) : pyAdd a b = a + b := by
  have ha : ((a.den : Rat)) ≠ 0 := Nat.cast_ne_zero.mpr a.den_nz
  have hb : ((b.den : Rat)) ≠ 0 := Nat.cast_ne_zero.mpr b.den_nz
  rw [pyAdd, Rat.mkRat_eq_div]
  conv_rhs => rw [← Rat.num_div_den a, ← Rat.num_div_den b, div_add_div _ _ ha hb]
  push_cast
  ring_nf

theorem pySub_eq (a b : Rat) : pySub a b = a - b := by
  have ha : ((a.den : Rat)) ≠ 0 := Nat.cast_ne_zero.mpr a.den_nz
  have hb : ((b.den : Rat)) ≠ 0 := Nat.cast_ne_zero.mpr b.den_nz
  rw [pySub, Rat.mkRat_eq_div]
  conv_rhs => rw [← Rat.num_div_den a, ← Rat.num_div_den b, div_sub_div _ _ ha hb]
  push_cast
  ring_nf

/-! ## Line sums (SciencePoints download) -/

theorem lineSum_eq_sum (f : String → Option Rat) (ls : List String) :
    lineSum f ls = (ls.filterMap f).sum := by
  suffices h : ∀ a : Rat,
      ls.foldl (fun acc l => match f l with | some v => pyAdd acc v | none => acc) a
        = a + (ls.filterMap f).sum by
    simpa [lineSum] using h 0
  induction ls with
  | nil => simp
  | cons l ls ih =>
    intro a
    rw [List.foldl_cons, List.filterMap_cons]
    cases hf : f l with
    | none => simpa only [hf] using ih a
    | some v =>
      simp only [hf]
      rw [ih (pyAdd a v), pyAdd_eq, List.sum_cons, add_assoc]

/-! ## Ballots -/

theorem yesCount_add_noCount (vs : List (String × Bool)) :
    yesCount vs + noCount vs = vs.length := by
  induction vs with
  | nil => rfl
  | cons p r ih =>
    cases hp : p.2 <;>
      simp [yesCount, noCount, List.countP_cons, hp] at ih ⊢ <;> omega

/-! ## TechTree merge structure -/

theorem techMergeFold (ids : List String) (costs : List (String × Rat))
    (bs : List (List String)) (acc : List (List String)) (c : Rat) :
    bs.foldl (techMergeStep ids costs) (acc, c)
      = (acc ++ bs.filter (techAccepted ids),
         c + ((bs.filter (techAccepted ids)).map (techBlockCost costs)).sum) := by
  induction bs generalizing acc c with
  | nil => simp
  | cons b bs ih =>
    rw [List.foldl_cons]
    by_cases hb : techAccepted ids b
    · rw [show techMergeStep ids costs (acc, c) b
          = (acc ++ [b], pyAdd c (techBlockCost costs b)) from by
            simp [techMergeStep, hb]]
      rw [ih, List.filter_cons_of_pos hb]
      simp [pyAdd_eq, add_assoc]
    · rw [show techMergeStep ids costs (acc, c) b = (acc, c) from by
        simp [techMergeStep, hb]]
      rw [ih, List.filter_cons_of_neg hb]

theorem techAccepted_iff (ids : List String) (b : List String) :
    techAccepted ids b = true
      ↔ ∃ i, techBlockId? b = some i ∧ i ≠ "" ∧ i ∉ ids := by
  unfold techAccepted
  cases hb : techBlockId? b with
  | none => simp
  | some i =>
    simp only [List.contains, List.elem_eq_mem, Bool.and_eq_true, Bool.not_eq_true',
      decide_eq_true_eq, decide_eq_false_iff_not, Option.some.injEq]
    constructor
    · rintro ⟨h1, h2⟩
      exact ⟨i, rfl, h1, h2⟩
    · rintro ⟨j, hj, hne, hnm⟩
      subst hj
      exact ⟨hne, hnm⟩

theorem techAccepted_id (ids : List String) (b : List String)
    (h : techAccepted ids b = true) :
    ∃ i, techBlockId? b = some i ∧ i ≠ "" ∧ i ∉ ids :=
  (techAccepted_iff ids b).mp h

theorem blockCost_map (costs : List (String × Rat)) (bs : List (List String))
    (h : ∀ b ∈ bs, ∃ i, techBlockId? b = some i) :
    bs.map (techBlockCost costs)
      = (bs.filterMap techBlockId?).map (fun i => (assocFind? costs i).getD 0) := by
  induction bs with
  | nil => simp
  | cons b bs ih =>
    obtain ⟨i, hi⟩ := h b (by simp)
    rw [List.map_cons, List.filterMap_cons, hi, List.map_cons,
      ih (fun b hb => h b (by simp [hb]))]
    simp [techBlockCost, hi]

/-! ## Base64 and byte-array union -/

theorem zipWith_lor_replicate_left (B : List Nat) :
    List.zipWith (fun x y => x ||| y) (List.replicate B.length 0) B = B := by
  induction B with
  | nil => rfl
  | cons y ys ih => simp [List.replicate_succ, ih]

theorem zipWith_lor_replicate_right (A : List Nat) :
    List.zipWith (fun x y => x ||| y) A (List.replicate A.length 0) = A := by
  induction A with
  | nil => rfl
  | cons x xs ih => simp [List.replicate_succ, ih]

theorem mapUnionBytes_eq_orBytes (A B : List Nat) :
    mapUnionBytes A B = orBytes A B := by
  induction A generalizing B with
  | nil =>
    cases B with
    | nil => rfl
    | cons y ys =>
      show List.zipWith _ (List.replicate _ 0) _ = _
      simp only [List.length_nil, Nat.zero_max, Nat.sub_zero, List.nil_append, orBytes,
        Nat.sub_self, List.replicate_zero, List.append_nil]
      exact zipWith_lor_replicate_left (y :: ys)
  | cons x xs ih =>
    cases B with
    | nil =>
      show List.zipWith _ _ (List.replicate _ 0) = _
      simp only [List.length_nil, Nat.max_zero, Nat.sub_zero, List.nil_append, orBytes,
        Nat.sub_self, List.replicate_zero, List.append_nil]
      exact zipWith_lor_replicate_right (x :: xs)
    | cons y ys =>
      have hmax : max (xs.length + 1) (ys.length + 1) = max xs.length ys.length + 1 :=
        Nat.succ_max_succ _ _
      show List.zipWith _ ((x :: xs) ++ List.replicate (max (xs.length + 1) (ys.length + 1) - (xs.length + 1)) 0)
        ((y :: ys) ++ List.replicate (max (xs.length + 1) (ys.length + 1) - (ys.length + 1)) 0) = _
      rw [hmax, Nat.succ_sub_succ, Nat.succ_sub_succ, List.cons_append, List.cons_append,
        List.zipWith_cons_cons]
      have htail : List.zipWith (fun a b => a ||| b)
          (xs ++ List.replicate (max xs.length ys.length - xs.length) 0)
          (ys ++ List.replicate (max xs.length ys.length - ys.length) 0)
          = mapUnionBytes xs ys := rfl
      rw [htail, ih]
      rfl

theorem orBytes_comm (A B : List Nat) : orBytes A B = orBytes B A := by
  induction A generalizing B with
  | nil => cases B <;> rfl
  | cons x xs ih =>
    cases B with
    | nil => rfl
    | cons y ys => simp [orBytes, Nat.or_comm, ih]

theorem orBytes_assoc (A B C : List Nat) :
    orBytes (orBytes A B) C = orBytes A (orBytes B C) := by
  induction A generalizing B C with
  | nil => rfl
  | cons x xs ih =>
    cases B with
    | nil => rfl
    | cons y ys =>
      cases C with
      | nil => rfl
      | cons z zs => simp [orBytes, Nat.or_assoc, ih]

theorem orBytes_self (A : List Nat) : orBytes A A = A := by
  induction A with
  | nil => rfl
  | cons x xs ih => simp [orBytes, ih]

theorem orBytes_getD (A B : List Nat) (k : Nat) :
    (orBytes A B).getD k 0 = A.getD k 0 ||| B.getD k 0 := by
  induction A generalizing B k with
  | nil => cases B <;> simp [orBytes]
  | cons x xs ih =>
    cases B with
    | nil => simp [orBytes]
    | cons y ys =>
      cases k with
      | zero => simp [orBytes]
      | succ k => simpa [orBytes] using ih ys k

theorem or_lt_256 {x y : Nat} (hx : x < 256) (hy : y < 256) : x ||| y < 256 := by
  have : x ||| y < 2 ^ 8 := Nat.bitwise_lt_two_pow (by omega) (by omega)
  omega

theorem orBytes_lt (A : List Nat) :
    ∀ B : List Nat, (∀ x ∈ A, x < 256) → (∀ x ∈ B, x < 256) →
      ∀ x ∈ orBytes A B, x < 256 := by
  induction A with
  | nil => intro B _ hB; simpa [orBytes] using hB
  | cons x xs ih =>
    intro B hA hB
    cases B with
    | nil => simpa [orBytes] using hA
    | cons y ys =>
      intro z hz
      rcases List.mem_cons.mp hz with h | h
      · subst h
        exact or_lt_256 (hA x (by simp)) (hB y (by simp))
      · exact ih ys (fun a ha => hA a (by simp [ha])) (fun a ha => hB a (by simp [ha])) z h

theorem b64CharVal_b64Chr : ∀ v ∈ List.range 64, b64CharVal? (b64Chr v) = some v := by
  decide

theorem b64CharVal_b64Chr_of_lt (v : Nat) (h : v < 64) :
    b64CharVal? (b64Chr v) = some v :=
  b64CharVal_b64Chr v (List.mem_range.mpr h)

theorem b64Chr_ne_pad : ∀ v ∈ List.range 64, b64Chr v ≠ '=' := by decide

theorem b64Chr_ne_pad_of_lt (v : Nat) (h : v < 64) : b64Chr v ≠ '=' :=
  b64Chr_ne_pad v (List.mem_range.mpr h)

theorem wsChar_b64Chr : ∀ v ∈ List.range 64, wsChar (b64Chr v) = false := by decide

theorem wsChar_b64Chr_of_lt (v : Nat) (h : v < 64) : wsChar (b64Chr v) = false :=
  wsChar_b64Chr v (List.mem_range.mpr h)

theorem b64EncodeBytes_no_ws : ∀ bs : List Nat, (∀ x ∈ bs, x < 256) →
    ∀ c ∈ b64EncodeBytes bs, wsChar c = false
  | [], _, c, hc => by simp [b64EncodeBytes] at hc
  | [x], h, c, hc => by
    have hx : x < 256 := h x (by simp)
    simp only [b64EncodeBytes, List.mem_cons, List.not_mem_nil, or_false] at hc
    rcases hc with rfl | rfl | rfl | rfl
    · exact wsChar_b64Chr_of_lt _ (by omega)
    · exact wsChar_b64Chr_of_lt _ (by omega)
    · decide
    · decide
  | [x, y], h, c, hc => by
    have hx : x < 256 := h x (by simp)
    have hy : y < 256 := h y (by simp)
    simp only [b64EncodeBytes, List.mem_cons, List.not_mem_nil, or_false] at hc
    rcases hc with rfl | rfl | rfl | rfl
    · exact wsChar_b64Chr_of_lt _ (by omega)
    · exact wsChar_b64Chr_of_lt _ (by omega)
    · exact wsChar_b64Chr_of_lt _ (by omega)
    · decide
  | x :: y :: z :: rest, h, c, hc => by
    have hx : x < 256 := h x (by simp)
    have hy : y < 256 := h y (by simp)
    have hz : z < 256 := h z (by simp)
    simp only [b64EncodeBytes, List.cons_append, List.nil_append, List.mem_cons] at hc
    rcases hc with rfl | rfl | rfl | rfl | hc
    · exact wsChar_b64Chr_of_lt _ (by omega)
    · exact wsChar_b64Chr_of_lt _ (by omega)
    · exact wsChar_b64Chr_of_lt _ (by omega)
    · exact wsChar_b64Chr_of_lt _ (by omega)
    · exact b64EncodeBytes_no_ws rest (fun a ha => h a (by simp [ha])) c hc

theorem b64EncodeBytes_len_mod4 : ∀ bs : List Nat, (b64EncodeBytes bs).length % 4 = 0
  | [] => rfl
  | [_] => by simp [b64EncodeBytes]
  | [_, _] => by simp [b64EncodeBytes]
  | _ :: _ :: _ :: rest => by
    have := b64EncodeBytes_len_mod4 rest
    simp only [b64EncodeBytes, List.cons_append, List.nil_append, List.length_cons]
    omega

theorem b64DecodeGroups_encode : ∀ bs : List Nat, (∀ x ∈ bs, x < 256) →
    b64DecodeGroups (b64EncodeBytes bs) = some bs
  | [], _ => rfl
  | [x], h => by
    have hx : x < 256 := h x (by simp)
    have e1 : x / 4 * 4 + x % 4 * 16 / 16 = x := by omega
    show b64DecodeGroups [b64Chr (x / 4), b64Chr (x % 4 * 16), '=', '='] = some [x]
    simp only [b64DecodeGroups, b64CharVal_b64Chr_of_lt _ (by omega : x / 4 < 64),
      b64CharVal_b64Chr_of_lt _ (by omega : x % 4 * 16 < 64)]
    simp
    omega
  | [x, y], h => by
    have hx : x < 256 := h x (by simp)
    have hy : y < 256 := h y (by simp)
    have e1 : x / 4 * 4 + (x % 4 * 16 + y / 16) / 16 = x := by omega
    have e2 : (x % 4 * 16 + y / 16) % 16 * 16 + y % 16 * 4 / 4 = y := by omega
    show b64DecodeGroups
        [b64Chr (x / 4), b64Chr (x % 4 * 16 + y / 16), b64Chr (y % 16 * 4), '='] = some [x, y]
    simp only [b64DecodeGroups, b64CharVal_b64Chr_of_lt _ (by omega : x / 4 < 64),
      b64CharVal_b64Chr_of_lt _ (by omega : x % 4 * 16 + y / 16 < 64),
      b64CharVal_b64Chr_of_lt _ (by omega : y % 16 * 4 < 64),
      if_neg (b64Chr_ne_pad_of_lt _ (by omega : y % 16 * 4 < 64))]
    simp
    omega
  | x :: y :: z :: rest, h => by
    have hx : x < 256 := h x (by simp)
    have hy : y < 256 := h y (by simp)
    have hz : z < 256 := h z (by simp)
    have hrec := b64DecodeGroups_encode rest (fun a ha => h a (by simp [ha]))
    have e1 : x / 4 * 4 + (x % 4 * 16 + y / 16) / 16 = x := by omega
    have e2 : (x % 4 * 16 + y / 16) % 16 * 16 + (y % 16 * 4 + z / 64) / 4 = y := by omega
    have e3 : (y % 16 * 4 + z / 64) % 4 * 64 + z % 64 = z := by omega
    show b64DecodeGroups
        (b64Chr (x / 4) :: b64Chr (x % 4 * 16 + y / 16) :: b64Chr (y % 16 * 4 + z / 64)
          :: b64Chr (z % 64) :: b64EncodeBytes rest) = _
    simp only [b64DecodeGroups, b64CharVal_b64Chr_of_lt _ (by omega : x / 4 < 64),
      b64CharVal_b64Chr_of_lt _ (by omega : x % 4 * 16 + y / 16 < 64),
      b64CharVal_b64Chr_of_lt _ (by omega : y % 16 * 4 + z / 64 < 64),
      b64CharVal_b64Chr_of_lt _ (by omega : z % 64 < 64),
      if_neg (b64Chr_ne_pad_of_lt _ (by omega : y % 16 * 4 + z / 64 < 64)),
      if_neg (b64Chr_ne_pad_of_lt _ (by omega : z % 64 < 64)), hrec]
    simp
    omega

theorem toList_mk (cs : List Char) : (String.mk cs).toList = cs := rfl

theorem dropWhile_of_head_false {α : Type} (p : α → Bool) (l : List α)
    (h : ∀ c ∈ l, p c = false) : l.dropWhile p = l := by
  cases l with
  | nil => rfl
  | cons c cs =>
    rw [List.dropWhile_cons]
    simp [h c (by simp)]

theorem trimChars_of_no_ws (cs : List Char) (h : ∀ c ∈ cs, wsChar c = false) :
    trimChars cs = cs := by
  unfold trimChars
  rw [dropWhile_of_head_false _ _ h,
    dropWhile_of_head_false _ _ (fun c hc => h c (List.mem_reverse.mp hc)),
    List.reverse_reverse]

theorem b64Decode?_encode (bs : List Nat) (h : ∀ x ∈ bs, x < 256) :
    b64Decode? (b64Encode bs) = some bs := by
  have hlen := b64EncodeBytes_len_mod4 bs
  show b64DecodeGroups
      (trimChars (String.mk (b64EncodeBytes bs)).toList
        ++ List.replicate
          ((4 - (trimChars (String.mk (b64EncodeBytes bs)).toList).length % 4) % 4) '=')
    = some bs
  rw [toList_mk, trimChars_of_no_ws _ (b64EncodeBytes_no_ws bs h)]
  rw [show (4 - (b64EncodeBytes bs).length % 4) % 4 = 0 from by omega]
  simpa using b64DecodeGroups_encode bs h

theorem b64CharVal?_lt (c : Char) (v : Nat) (h : b64CharVal? c = some v) : v < 64 := by
  unfold b64CharVal? at h
  split at h
  · injection h with h; omega
  · split at h
    · injection h with h; omega
    · split at h
      · injection h with h; omega
      · split at h
        · injection h with h; omega
        · split at h
          · injection h with h; omega
          · exact Option.noConfusion h

theorem b64DecodeGroups_lt : ∀ (cs : List Char) (bs : List Nat),
    b64DecodeGroups cs = some bs → ∀ x ∈ bs, x < 256
  | [], bs, h => by
    simp only [b64DecodeGroups, Option.some.injEq] at h
    subst h; simp
  | [_], bs, h => by simp [b64DecodeGroups] at h
  | [_, _], bs, h => by simp [b64DecodeGroups] at h
  | [_, _, _], bs, h => by simp [b64DecodeGroups] at h
  | c1 :: c2 :: c3 :: c4 :: rest, bs, h => by
    rw [b64DecodeGroups] at h
    cases hv1 : b64CharVal? c1 with
    | none => simp [hv1] at h
    | some a =>
    cases hv2 : b64CharVal? c2 with
    | none => simp [hv1, hv2] at h
    | some b =>
    simp only [hv1, hv2] at h
    have ha := b64CharVal?_lt c1 a hv1
    have hb := b64CharVal?_lt c2 b hv2
    by_cases h3 : c3 = '='
    · rw [if_pos h3] at h
      by_cases h4 : c4 = '=' ∧ rest = []
      · rw [if_pos h4] at h
        injection h with h
        subst h
        intro x hx
        rcases List.mem_singleton.mp hx with rfl
        omega
      · rw [if_neg h4] at h; exact Option.noConfusion h
    · rw [if_neg h3] at h
      cases hv3 : b64CharVal? c3 with
      | none => simp [hv3] at h
      | some c =>
      simp only [hv3] at h
      have hc := b64CharVal?_lt c3 c hv3
      by_cases h4 : c4 = '='
      · rw [if_pos h4] at h
        by_cases h5 : rest = []
        · rw [if_pos h5] at h
          injection h with h
          subst h
          intro x hx
          rcases List.mem_cons.mp hx with rfl | hx
          · omega
          · rcases List.mem_singleton.mp hx with rfl
            omega
        · rw [if_neg h5] at h; exact Option.noConfusion h
      · rw [if_neg h4] at h
        cases hv4 : b64CharVal? c4 with
        | none => simp [hv4] at h
        | some d =>
        simp only [hv4] at h
        have hd := b64CharVal?_lt c4 d hv4
        cases hrest : b64DecodeGroups rest with
        | none => simp [hrest] at h
        | some tl =>
        simp only [hrest] at h
        injection h with h
        subst h
        intro x hx
        simp only [List.cons_append, List.nil_append, List.mem_cons] at hx
        rcases hx with rfl | rfl | rfl | hx
        · omega
        · omega
        · omega
        · exact b64DecodeGroups_lt rest tl hrest x hx

theorem b64Decode?_lt (s : String) (bs : List Nat) (h : b64Decode? s = some bs) :
    ∀ x ∈ bs, x < 256 := by
  unfold b64Decode? at h
  exact b64DecodeGroups_lt _ _ h

/-! ## Rewriting one `Key = value` line inside a block -/

theorem toList_append (a b : String) : (a ++ b).toList = a.toList ++ b.toList := rfl

theorem mk_toList (s : String) : String.mk s.toList = s := rfl

theorem rfStep_true (t : String → Bool) (r : String → String)
    (acc : List String) (ln : String) :
    rfStep t r (acc, true) ln = (acc ++ [ln], true) := by
  simp [rfStep]

theorem rfStep_false_skip (t : String → Bool) (r : String → String)
    (acc : List String) (ln : String) (h : t ln = false) :
    rfStep t r (acc, false) ln = (acc ++ [ln], false) := by
  simp [rfStep, h]

theorem rfStep_false_hit (t : String → Bool) (r : String → String)
    (acc : List String) (ln : String) (h : t ln = true) :
    rfStep t r (acc, false) ln = (acc ++ [r ln], true) := by
  simp [rfStep, h]

theorem replaceFirst_fold_true (t : String → Bool) (r : String → String)
    (ls : List String) (acc : List String) :
    ls.foldl (rfStep t r) (acc, true) = (acc ++ ls, true) := by
  induction ls generalizing acc with
  | nil => simp
  | cons l ls ih =>
    rw [List.foldl_cons, rfStep_true, ih]
    simp

theorem replaceFirst_fold_false (t : String → Bool) (r : String → String)
    (ls : List String) (acc : List String) (h : ∀ l ∈ ls, t l = false) :
    ls.foldl (rfStep t r) (acc, false) = (acc ++ ls, false) := by
  induction ls generalizing acc with
  | nil => simp
  | cons l ls ih =>
    rw [List.foldl_cons, rfStep_false_skip t r acc l (h l (by simp)),
      ih (acc ++ [l]) (fun x hx => h x (by simp [hx]))]
    simp

theorem replaceFirst_none (t : String → Bool) (r : String → String)
    (ls : List String) (h : ∀ l ∈ ls, t l = false) :
    replaceFirst t r ls = (ls, false) := by
  unfold replaceFirst
  simpa using replaceFirst_fold_false t r ls [] h

theorem replaceFirst_found (t : String → Bool) (r : String → String)
    (pre : List String) (l0 : String) (post : List String)
    (hpre : ∀ l ∈ pre, t l = false) (h0 : t l0 = true) :
    replaceFirst t r (pre ++ l0 :: post) = (pre ++ r l0 :: post, true) := by
  unfold replaceFirst
  rw [List.foldl_append]
  rw [replaceFirst_fold_false t r pre [] hpre, List.nil_append, List.foldl_cons]
  rw [rfStep_false_hit t r pre l0 h0, replaceFirst_fold_true]
  simp

theorem find?_pre_cons (t : String → Bool) (pre : List String) (l0 : String)
    (post : List String) (hpre : ∀ l ∈ pre, t l = false) (h0 : t l0 = true) :
    (pre ++ l0 :: post).find? t = some l0 := by
  induction pre with
  | nil => simpa using List.find?_cons_of_pos post h0
  | cons a pre ih =>
    rw [List.cons_append, List.find?_cons_of_neg _ (by simp [hpre a (by simp)])]
    exact ih (fun l hl => hpre l (by simp [hl]))

theorem find?_split (t : String → Bool) (ls : List String) (l0 : String)
    (h : ls.find? t = some l0) :
    ∃ pre post, ls = pre ++ l0 :: post ∧ (∀ l ∈ pre, t l = false) ∧ t l0 = true := by
  induction ls with
  | nil => simp [List.find?] at h
  | cons a ls ih =>
    cases ha : t a with
    | true =>
      rw [List.find?_cons_of_pos _ ha] at h
      injection h with h
      subst h
      exact ⟨[], ls, by simp, by simp, ha⟩
    | false =>
      rw [List.find?_cons_of_neg _ (by simp [ha])] at h
      obtain ⟨pre, post, hsplit, hpre, h0⟩ := ih h
      exact ⟨a :: pre, post, by simp [hsplit], by
        intro l hl
        rcases List.mem_cons.mp hl with rfl | hl
        · exact ha
        · exact hpre l hl, h0⟩

theorem lineIndent_ws (ln : String) : ∀ c ∈ (lineIndent ln).toList, wsChar c = true := by
  intro c hc
  exact List.mem_takeWhile_imp (by simpa [lineIndent] using hc)

theorem dropWhile_ws_append (l1 l2 : List Char) (h : ∀ c ∈ l1, wsChar c = true) :
    (l1 ++ l2).dropWhile wsChar = l2.dropWhile wsChar := by
  induction l1 with
  | nil => rfl
  | cons c cs ih =>
    rw [List.cons_append, List.dropWhile_cons]
    simp only [h c (by simp), if_true]
    exact ih (fun x hx => h x (by simp [hx]))

theorem sTrim_ws_append (ind rest : String)
    (hind : ∀ c ∈ ind.toList, wsChar c = true)
    (h1 : rest.toList.dropWhile wsChar = rest.toList)
    (h2 : rest.toList.reverse.dropWhile wsChar = rest.toList.reverse) :
    sTrim (ind ++ rest) = rest := by
  unfold sTrim trimChars
  rw [toList_append, dropWhile_ws_append _ _ hind, h1, h2, List.reverse_reverse, mk_toList]

theorem dropWhile_ws_of_no_ws (u : String) (hu : ∀ c ∈ u.toList, wsChar c = false) :
    u.toList.dropWhile wsChar = u.toList :=
  dropWhile_of_head_false _ _ hu

theorem dropWhile_ws_rev_of_no_ws (u : String) (hu : ∀ c ∈ u.toList, wsChar c = false) :
    u.toList.reverse.dropWhile wsChar = u.toList.reverse :=
  dropWhile_of_head_false _ _ (fun c hc => hu c (List.mem_reverse.mp hc))

/-- The `Map = value` line's body survives `str.strip` untouched on the
left (it starts with `M`) and on the right when the value has no edge
whitespace. -/
theorem kvRest_dropWhile_left (u : String) :
    ("Map = " ++ u).toList.dropWhile wsChar = ("Map = " ++ u).toList := by
  rfl

theorem kvRest_dropWhile_right (u : String)
    (hu : ∀ c ∈ u.toList, wsChar c = false) (hne : u ≠ "") :
    ("Map = " ++ u).toList.reverse.dropWhile wsChar = ("Map = " ++ u).toList.reverse := by
  have : ("Map = " ++ u).toList = "Map = ".toList ++ u.toList := rfl
  rw [this, List.reverse_append]
  cases hrev : u.toList.reverse with
  | nil =>
    have hnil : u.toList = [] := by simpa using congrArg List.reverse hrev
    exact absurd (by rw [← mk_toList u, hnil]) hne
  | cons c cs =>
    have hc : wsChar c = false := by
      refine hu c (List.mem_reverse.mp ?_)
      rw [hrev]
      simp
    rw [List.cons_append, List.dropWhile_cons]
    simp [hc]

theorem sTrim_kvLine (ind u : String)
    (hind : ∀ c ∈ ind.toList, wsChar c = true)
    (hu : ∀ c ∈ u.toList, wsChar c = false) (hne : u ≠ "") :
    sTrim (ind ++ ("Map = " ++ u)) = "Map = " ++ u :=
  sTrim_ws_append ind _ hind (kvRest_dropWhile_left u)
    (kvRest_dropWhile_right u hu hne)

theorem sStartsWith_kvLine (u : String) : sStartsWith ("Map = " ++ u) "Map =" = true := by
  show List.isPrefixOf "Map =".toList ("Map =".toList ++ (' ' :: u.toList)) = true
  induction "Map =".toList with
  | nil => rfl
  | cons c cs ih => simp [List.isPrefixOf, ih]

theorem afterFirstEq_kvLine (u : String) : afterFirstEq ("Map = " ++ u) = " " ++ u := rfl

theorem sTrim_space_append (u : String)
    (hu : ∀ c ∈ u.toList, wsChar c = false) :
    sTrim (" " ++ u) = u := by
  refine sTrim_ws_append " " u (by decide) (dropWhile_ws_of_no_ws u hu)
    (dropWhile_ws_rev_of_no_ws u hu)

/-- Rewriting a block's `Map =` line with an edge-clean nonempty value
and reading it back returns exactly that value, provided the block has a
`Map =` line to replace or a closing-brace line to insert before. -/
theorem extractMap_replaceMap (blk : List String) (u : String)
    (hu : ∀ c ∈ u.toList, wsChar c = false) (hne : u ≠ "")
    (hcond : blk.any (fun ln => sStartsWith (sTrim ln) "Map =") = true
      ∨ (blk.reverse.findIdx? (fun l => sTrim l = "\x7d")).isSome = true) :
    extractMap (replaceMap blk u) = u := by
  set t := fun ln => sStartsWith (sTrim ln) "Map =" with ht
  by_cases hany : blk.any t = true
  · obtain ⟨l0, hfind⟩ : ∃ l0, blk.find? t = some l0 := by
      rcases hiso : blk.find? t with _ | l0
      · rw [List.find?_eq_none] at hiso
        rw [List.any_eq_true] at hany
        obtain ⟨x, hx, hxt⟩ := hany
        exact absurd hxt (by simpa using hiso x hx)
      · exact ⟨l0, rfl⟩
    obtain ⟨pre, post, hsplit, hpre, h0⟩ := find?_split t blk l0 hfind
    have hw : sTrim (lineIndent l0 ++ ("Map = " ++ u)) = "Map = " ++ u :=
      sTrim_kvLine _ u (lineIndent_ws l0) hu hne
    have hrw : replaceMap blk u
        = pre ++ (lineIndent l0 ++ "Map = " ++ u) :: post := by
      unfold replaceMap
      rw [hsplit, replaceFirst_found t _ pre l0 post hpre h0]
      simp [String.append_assoc]
    rw [hrw]
    unfold extractMap
    rw [show (lineIndent l0 ++ "Map = " ++ u) = lineIndent l0 ++ ("Map = " ++ u) from by
      rw [String.append_assoc]]
    rw [find?_pre_cons t pre _ post hpre (by rw [ht]; simp only []; rw [hw]; exact sStartsWith_kvLine u)]
    show sTrim (afterFirstEq (sTrim (lineIndent l0 ++ ("Map = " ++ u)))) = u
    rw [hw, afterFirstEq_kvLine, sTrim_space_append u hu]
  · have hall : ∀ l ∈ blk, t l = false := by
      intro l hl
      rcases hbool : t l with _ | _
      · rfl
      · exact absurd (List.any_eq_true.mpr ⟨l, hl, hbool⟩) hany
    have hsome : (blk.reverse.findIdx? (fun l => sTrim l = "\x7d")).isSome = true := by
      rcases hcond with hc | hc
      · exact absurd hc hany
      · exact hc
    obtain ⟨i, hi⟩ := Option.isSome_iff_exists.mp hsome
    have hrw : replaceMap blk u
        = blk.take (blk.length - 1 - i) ++ ("    Map = " ++ u) :: blk.drop (blk.length - 1 - i) := by
      unfold replaceMap
      rw [replaceFirst_none t _ blk hall]
      simp only [Bool.false_eq_true, if_neg, not_false_eq_true]
      unfold insertBeforeLastClose
      rw [hi]
      simp
    rw [hrw]
    unfold extractMap
    have hw : sTrim ("    Map = " ++ u) = "Map = " ++ u := by
      rw [show ("    Map = " ++ u) = "    " ++ ("Map = " ++ u) from rfl]
      exact sTrim_kvLine "    " u (by decide) hu hne
    rw [find?_pre_cons t _ _ _
      (fun l hl => hall l (List.mem_of_mem_take hl))
      (by rw [ht]; simp only []; rw [hw]; exact sStartsWith_kvLine u)]
    show sTrim (afterFirstEq (sTrim ("    Map = " ++ u))) = u
    rw [hw, afterFirstEq_kvLine, sTrim_space_append u hu]

/-! ## `_map_union` algebra -/

theorem orBytes_ne_nil (A B : List Nat) (h : A ≠ [] ∨ B ≠ []) : orBytes A B ≠ [] := by
  cases A with
  | nil =>
    cases B with
    | nil => rcases h with h | h <;> exact absurd rfl h
    | cons y ys => simp [orBytes]
  | cons x xs => cases B <;> simp [orBytes]

theorem b64EncodeBytes_ne_nil (bs : List Nat) (h : bs ≠ []) : b64EncodeBytes bs ≠ [] := by
  match bs with
  | [] => exact absurd rfl h
  | [x] => simp [b64EncodeBytes]
  | [x, y] => simp [b64EncodeBytes]
  | x :: y :: z :: rest => simp [b64EncodeBytes]

theorem b64Encode_ne_empty (bs : List Nat) (h : bs ≠ []) : b64Encode bs ≠ "" := by
  intro hc
  apply b64EncodeBytes_ne_nil bs h
  have : (b64Encode bs).toList = "".toList := by rw [hc]
  simpa [b64Encode] using this

theorem mapUnion_eq_encode (a b : String) (A B : List Nat)
    (hA : b64Decode? a = some A) (hB : b64Decode? b = some B) :
    mapUnion a b = b64Encode (orBytes A B) := by
  simp [mapUnion, hA, hB, mapUnionBytes_eq_orBytes]

theorem b64Decode_mapUnion (a b : String) (A B : List Nat)
    (hA : b64Decode? a = some A) (hB : b64Decode? b = some B) :
    b64Decode? (mapUnion a b) = some (orBytes A B) := by
  rw [mapUnion_eq_encode a b A B hA hB]
  exact b64Decode?_encode _ (orBytes_lt A B (b64Decode?_lt a A hA) (b64Decode?_lt b B hB))

/-- Replacing a block's map with the union of its own map and another
block's map, then reading it back, decodes to the byte-wise OR of the two
coverage bitmaps. -/
theorem foldBodyPair_bitmap (blkA blkB : List String) (A B : List Nat)
    (hA : b64Decode? (extractMap blkA) = some A)
    (hB : b64Decode? (extractMap blkB) = some B)
    (hnil : A ≠ [] ∨ B ≠ [])
    (hcond : blkA.any (fun ln => sStartsWith (sTrim ln) "Map =") = true
      ∨ (blkA.reverse.findIdx? (fun l => sTrim l = "\x7d")).isSome = true) :
    b64Decode? (extractMap (foldBodyPair blkA blkB)) = some (orBytes A B) := by
  unfold foldBodyPair
  set u := mapUnion (extractMap blkA) (extractMap blkB) with hu
  have hue : u = b64Encode (orBytes A B) := mapUnion_eq_encode _ _ A B hA hB
  have hlt : ∀ x ∈ orBytes A B, x < 256 :=
    orBytes_lt A B (b64Decode?_lt _ A hA) (b64Decode?_lt _ B hB)
  have hnws : ∀ c ∈ u.toList, wsChar c = false := by
    rw [hue]
    exact fun c hc => b64EncodeBytes_no_ws _ hlt c (by simpa [b64Encode] using hc)
  have hne : u ≠ "" := by
    rw [hue]
    exact b64Encode_ne_empty _ (orBytes_ne_nil A B hnil)
  rw [extractMap_replaceMap blkA u hnws hne hcond, hue]
  exact b64Decode?_encode _ hlt

/-! ## ScienceArchives merge-step lemmas -/

theorem sciMergeStep_good (m : List (String × SciEntry)) (b : List String)
    (sid : String) (sci cap : Option Rat)
    (hp : parseScienceBlock b = (some sid, sci, cap)) (hid : sid ≠ "") :
    sciMergeStep m b = assocUpd m sid (mergedSciEntry b sci cap (assocFind? m sid)) := by
  unfold sciMergeStep
  simp only [hp]
  rw [if_neg hid]

theorem assocUpd2_find? {α : Type} (m : List (String × α)) (k1 k2 : String)
    (v1 v2 : α) (h : k1 ≠ k2) (k : String) :
    assocFind? (assocUpd (assocUpd m k1 v1) k2 v2) k
      = assocFind? (assocUpd (assocUpd m k2 v2) k1 v1) k := by
  by_cases hk2 : k = k2
  · subst hk2
    rw [assocFind?_upd_self, assocFind?_upd_ne _ _ _ _ (fun hh => h hh.symm),
      assocFind?_upd_self]
  · rw [assocFind?_upd_ne _ _ _ _ hk2]
    by_cases hk1 : k = k1
    · subst hk1
      rw [assocFind?_upd_self, assocFind?_upd_self]
    · rw [assocFind?_upd_ne _ _ _ _ hk1, assocFind?_upd_ne _ _ _ _ hk1,
        assocFind?_upd_ne _ _ _ _ hk2]

theorem mem_assocUpd_keys {α : Type} (m : List (String × α)) (k k' : String) (v : α) :
    k ∈ (assocUpd m k' v).map Prod.fst ↔ k ∈ m.map Prod.fst ∨ k = k' := by
  rw [assocUpd_keys]
  by_cases h : k' ∈ m.map Prod.fst
  · rw [if_pos h]
    constructor
    · exact Or.inl
    · rintro (hk | rfl)
      · exact hk
      · exact h
  · rw [if_neg h]
    simp

theorem assocUpd2_keys_perm {α : Type} (m : List (String × α)) (k1 k2 : String)
    (v1 v2 : α) (h : k1 ≠ k2) :
    ((assocUpd (assocUpd m k1 v1) k2 v2).map Prod.fst).Perm
      ((assocUpd (assocUpd m k2 v2) k1 v1).map Prod.fst) := by
  have h' : ¬ k2 = k1 := fun hh => h hh.symm
  have hswap : ∀ (K : List String) (a b : String),
      ((K ++ [a]) ++ [b]).Perm ((K ++ [b]) ++ [a]) := by
    intro K a b
    rw [List.append_assoc, List.append_assoc]
    exact List.Perm.append_left K List.perm_append_comm
  by_cases h1 : k1 ∈ m.map Prod.fst <;> by_cases h2 : k2 ∈ m.map Prod.fst
  · have e1 := assocUpd_keys_mem m k1 v1 h1
    have e2 := assocUpd_keys_mem m k2 v2 h2
    rw [assocUpd_keys_mem _ _ _ (by rw [e1]; exact h2), e1,
      assocUpd_keys_mem _ _ _ (by rw [e2]; exact h1), e2]
  · have e1 := assocUpd_keys_mem m k1 v1 h1
    have e2 : (assocUpd m k2 v2).map Prod.fst = m.map Prod.fst ++ [k2] := by
      rw [assocUpd_keys, if_neg h2]
    rw [assocUpd_keys, e1, if_neg h2,
      assocUpd_keys_mem _ _ _ (by rw [e2]; simp [h1]), e2]
  · have e1 : (assocUpd m k1 v1).map Prod.fst = m.map Prod.fst ++ [k1] := by
      rw [assocUpd_keys, if_neg h1]
    have e2 := assocUpd_keys_mem m k2 v2 h2
    rw [assocUpd_keys_mem _ _ _ (by rw [e1]; simp [h2]), e1,
      assocUpd_keys, e2, if_neg h1]
  · have e1 : (assocUpd m k1 v1).map Prod.fst = m.map Prod.fst ++ [k1] := by
      rw [assocUpd_keys, if_neg h1]
    have e2 : (assocUpd m k2 v2).map Prod.fst = m.map Prod.fst ++ [k2] := by
      rw [assocUpd_keys, if_neg h2]
    rw [assocUpd_keys, e1, if_neg (by simp [h2, h']),
      assocUpd_keys, e2, if_neg (by simp [h1, h])]
    exact hswap _ k1 k2

theorem if_gt_eq_max (s p : Rat) : (if s > p then s else p) = max p s := by
  rcases le_or_lt s p with hle | hlt
  · rw [if_neg (not_lt.mpr hle), max_eq_left hle]
  · rw [if_pos hlt, max_eq_right (le_of_lt hlt)]

theorem sortedScienceRaws_congr (m1 m2 : List (String × SciEntry))
    (hperm : (m1.map Prod.fst).Perm (m2.map Prod.fst))
    (hfind : ∀ k, assocFind? m1 k = assocFind? m2 k) :
    sortedScienceRaws m1 = sortedScienceRaws m2 := by
  unfold sortedScienceRaws
  have hsort : List.insertionSort (· ≤ ·) (m1.map Prod.fst)
      = List.insertionSort (· ≤ ·) (m2.map Prod.fst) :=
    @List.eq_of_perm_of_sorted String (· ≤ ·) _ _ _
      (((List.perm_insertionSort _ _).trans hperm).trans
        (List.perm_insertionSort _ _).symm)
      (List.sorted_insertionSort _ _) (List.sorted_insertionSort _ _)
  rw [hsort]
  exact List.filterMap_congr (fun k _ => by rw [hfind k])

/-! # Claims -/

/-! ## C1: TechTree merge dedup -/

/-- C1 counterexample: the dedup set is the ids of the *existing* state
only, so one upload that carries the same new id `T2` twice appends both
blocks — the stored TechTree then holds ids `[T1, T2, T2]`, a duplicate,
contradicting the claim that such an upload leaves the merged set free of
duplicate ids. -/
theorem techTree_dup_id_counterexample :
    ((techBlocksOfLines
        ((uploadTechTree
            ⟨some ["Tech", "\x7b", "id = T1", "cost = 10", "\x7d"], none, none⟩
            "Tech\n\x7b\nid = T2\ncost = 15\n\x7d\nTech\n\x7b\nid = T2\ncost = 15\n\x7d").1.techTree.getD
          [])).filterMap techBlockId?) = ["T1", "T2", "T2"]
    ∧ ¬ ((techBlocksOfLines
        ((uploadTechTree
            ⟨some ["Tech", "\x7b", "id = T1", "cost = 10", "\x7d"], none, none⟩
            "Tech\n\x7b\nid = T2\ncost = 15\n\x7d\nTech\n\x7b\nid = T2\ncost = 15\n\x7d").1.techTree.getD
          [])).filterMap techBlockId?).Nodup := by
  exact ⟨by decide, by decide⟩

/-- C1 amended: a new block is appended iff its (truthy) id is absent
from the ids parsed from the existing state, and the merged list is the
existing blocks followed by exactly the accepted new blocks — so existing
blocks are never replaced or removed; the merged ids are duplicate-free
provided the existing ids are duplicate-free (and covered by the parsed
id set) and the upload does not repeat an accepted id — dedup is *not*
applied within a single upload. -/
theorem techTree_merge_amended (exLines : List String) (newData : String) :
    (mergeTechBlocks exLines newData).1
      = techBlocksOfLines exLines
        ++ (extractTechBlocks newData).filter (techAccepted (techIdsAndCosts exLines).1)
    ∧ (∀ b, techAccepted (techIdsAndCosts exLines).1 b = true
        ↔ ∃ i, techBlockId? b = some i ∧ i ≠ "" ∧ i ∉ (techIdsAndCosts exLines).1)
    ∧ (((techBlocksOfLines exLines).filterMap techBlockId?).Nodup →
        (∀ i ∈ (techBlocksOfLines exLines).filterMap techBlockId?,
          i ∈ (techIdsAndCosts exLines).1) →
        (((extractTechBlocks newData).filter
            (techAccepted (techIdsAndCosts exLines).1)).filterMap techBlockId?).Nodup →
        ((mergeTechBlocks exLines newData).1.filterMap techBlockId?).Nodup) := by
  have hfold := techMergeFold (techIdsAndCosts exLines).1
    (extractTechIdsAndCosts newData).2 (extractTechBlocks newData)
    (techBlocksOfLines exLines) 0
  have h1 : (mergeTechBlocks exLines newData).1
      = techBlocksOfLines exLines
        ++ (extractTechBlocks newData).filter (techAccepted (techIdsAndCosts exLines).1) := by
    simp only [mergeTechBlocks]
    rw [hfold]
  refine ⟨h1, fun b => techAccepted_iff _ b, ?_⟩
  intro hex hsub hnew
  rw [h1, List.filterMap_append, List.nodup_append]
  refine ⟨hex, hnew, ?_⟩
  intro i hi hiacc
  rw [List.mem_filterMap] at hiacc
  obtain ⟨b, hb, hid⟩ := hiacc
  rw [List.mem_filter] at hb
  obtain ⟨j, hj, hjne, hjnm⟩ := techAccepted_id _ _ hb.2
  rw [hj] at hid
  injection hid with hid
  subst hid
  exact hjnm (hsub _ hi)

/-- C1 amended witness: the claim's own scenario — existing id `T1`,
upload of a fresh id `T2` — yields duplicate-free merged ids. -/
theorem techTree_merge_amended_witness :
    ((mergeTechBlocks ["Tech", "\x7b", "id = T1", "cost = 10", "\x7d"]
        "Tech\n\x7b\nid = T2\ncost = 15\n\x7d").1.filterMap techBlockId?).Nodup
    ∧ (mergeTechBlocks ["Tech", "\x7b", "id = T1", "cost = 10", "\x7d"]
        "Tech\n\x7b\nid = T2\ncost = 15\n\x7d").1.filterMap techBlockId? = ["T1", "T2"] := by
  exact ⟨(techTree_merge_amended ["Tech", "\x7b", "id = T1", "cost = 10", "\x7d"]
    "Tech\n\x7b\nid = T2\ncost = 15\n\x7d").2.2 (by decide) (by decide) (by decide),
    by decide⟩

/-! ## C2: TechTree cost accounting -/

/-- C2: on a merge into existing state the total charged cost is the sum
of the accepted ids' costs; when the SciencePoints file parses to `cur`
it is rewritten to `max 0 (cur - cost)` at six decimals; when it is
missing or unparsable it is left untouched and the request still
succeeds. -/
theorem techTree_cost_accounting (st : SaveState) (exLines : List String)
    (payload : String) (hex : st.techTree = some exLines) :
    (uploadTechTree st payload).2 = .ok
    ∧ (mergeTechBlocks exLines (sTrim payload)).2
        = ((((extractTechBlocks (sTrim payload)).filter
              (techAccepted (techIdsAndCosts exLines).1)).filterMap techBlockId?).map
            (fun i =>
              (assocFind? (extractTechIdsAndCosts (sTrim payload)).2 i).getD 0)).sum
    ∧ (∀ pls cur, st.sciencePoints = some pls → readPointsValue? pls = some cur →
        (uploadTechTree st payload).1.sciencePoints
          = some ["sci = " ++
              format6 (max 0 (cur - (mergeTechBlocks exLines (sTrim payload)).2))])
    ∧ (st.sciencePoints = none → (uploadTechTree st payload).1.sciencePoints = none)
    ∧ (∀ pls, st.sciencePoints = some pls → readPointsValue? pls = none →
        (uploadTechTree st payload).1.sciencePoints = some pls) := by
  refine ⟨?_, ?_, ?_, ?_, ?_⟩
  · cases hsp : st.sciencePoints with
    | none => simp [uploadTechTree, hex, hsp]
    | some pls =>
      cases hro : readPointsValue? pls <;> simp [uploadTechTree, hex, hsp, hro]
  · have hfold := techMergeFold (techIdsAndCosts exLines).1
      (extractTechIdsAndCosts (sTrim payload)).2 (extractTechBlocks (sTrim payload))
      (techBlocksOfLines exLines) 0
    have h2 : (mergeTechBlocks exLines (sTrim payload)).2
        = (((extractTechBlocks (sTrim payload)).filter
            (techAccepted (techIdsAndCosts exLines).1)).map
            (techBlockCost (extractTechIdsAndCosts (sTrim payload)).2)).sum := by
      simp only [mergeTechBlocks]
      rw [hfold, zero_add]
    rw [h2, blockCost_map]
    intro b hb
    rw [List.mem_filter] at hb
    obtain ⟨i, hi, _, _⟩ := techAccepted_id _ _ hb.2
    exact ⟨i, hi⟩
  · intro pls cur hsp hro
    simp [uploadTechTree, hex, hsp, hro, pySub_eq]
  · intro hsp
    simp [uploadTechTree, hex, hsp]
  · intro pls hsp hro
    simp [uploadTechTree, hex, hsp, hro]

/-- C2 witness: the claim's scenario — existing `{T1 (cost 10)}` with 50
stored points, uploading `T2 (cost 15)` leaves 35.000000, and
re-uploading the same `T2` block leaves 35.000000 (no double charge). -/
theorem techTree_cost_accounting_witness :
    (uploadTechTree
        ⟨some ["Tech", "\x7b", "id = T1", "cost = 10", "\x7d"], some ["sci = 50"], none⟩
        "Tech\n\x7b\nid = T2\ncost = 15\n\x7d").1.sciencePoints
      = some ["sci = 35.000000"]
    ∧ (uploadTechTree
        ⟨some ["Tech", "\x7b", "id = T1", "cost = 10", "\x7d", "Tech", "\x7b",
            "id = T2", "cost = 15", "\x7d"], some ["sci = 35.000000"], none⟩
        "Tech\n\x7b\nid = T2\ncost = 15\n\x7d").1.sciencePoints
      = some ["sci = 35.000000"] := by
  have h := techTree_cost_accounting
    ⟨some ["Tech", "\x7b", "id = T1", "cost = 10", "\x7d"], some ["sci = 50"], none⟩
    ["Tech", "\x7b", "id = T1", "cost = 10", "\x7d"]
    "Tech\n\x7b\nid = T2\ncost = 15\n\x7d" rfl
  have h1 := h.2.2.1 ["sci = 50"] (mkRat 50 1) rfl (by decide)
  rw [← pySub_eq] at h1
  exact ⟨h1.trans (by decide), by decide⟩

/-! ## C3: the SciencePoints read path -/

/-- C3: `GET /scenarios/<save>/SciencePoints` never reads the stored
SciencePoints file — its output is invariant under any change to that
file — and for every record-store state it returns
`max(0, Σ sci — Σ cost)` over the `sci =` lines of ScienceArchives.txt
and the `cost =` lines of TechTree.txt (absent files contributing
nothing), formatted to six decimals. -/
theorem downloadSciencePoints_ignores_stored_file (st : SaveState)
    (sp' : Option (List String)) :
    downloadSciencePoints { st with sciencePoints := sp' } = downloadSciencePoints st
    ∧ downloadSciencePoints st =
        "sci = " ++
          format6 (max 0 (((st.scienceArchives.getD []).filterMap sciLineVal?).sum
            - ((st.techTree.getD []).filterMap costLineVal?).sum)) ++ "\n" := by
  refine ⟨rfl, ?_⟩
  simp [downloadSciencePoints, lineSum_eq_sum, pySub_eq]

/-! ## C7: the SCANcontroller upload guard -/

/-- C4 counterexample: existing `{id=A, sci=40, cap=50}` merged with the
capless upload `{id=A, sci=60}` does store `sci = 50` — but the winning
base block is the upload, so the stored block has no `cap` line any more,
and re-sending the very same upload then stores `sci = 60 > 50`: the cap
does not persist across merges. -/
theorem scienceArchives_cap_counterexample :
    (uploadScienceArchives
        ⟨none, none, some ["Science", "\x7b", "    id = A", "    sci = 40.0",
          "    cap = 50.0", "\x7d"]⟩
        "Science\n\x7b\n    id = A\n    sci = 60.0\n\x7d").1.scienceArchives
      = some ["Science", "\x7b", "    id = A", "    sci = 50.0", "\x7d"]
    ∧ (uploadScienceArchives
        (uploadScienceArchives
          ⟨none, none, some ["Science", "\x7b", "    id = A", "    sci = 40.0",
            "    cap = 50.0", "\x7d"]⟩
          "Science\n\x7b\n    id = A\n    sci = 60.0\n\x7d").1
        "Science\n\x7b\n    id = A\n    sci = 60.0\n\x7d").1.scienceArchives
      = some ["Science", "\x7b", "    id = A", "    sci = 60.0", "\x7d"] := by
  constructor
  · decide
  · decide

/-- C4 amended: one merge step on a parsed upload block stores, under its
id, the entry whose cap is the upload's cap else the previously *loaded*
cap, whose `sci` is the larger of the previous and uploaded values clamped
to that cap, and whose stored block is the winning base block (the upload
on `uploaded ≥ previous`, else the previous block) with only its `sci`
line rewritten — so a `cap` line survives only if the winning base block
contains one. -/
theorem scienceArchives_cap_amended (m : List (String × SciEntry)) (b : List String)
    (sid : String) (sci cap : Option Rat) (prev : SciEntry)
    (hp : parseScienceBlock b = (some sid, sci, cap)) (hid : sid ≠ "")
    (hprev : assocFind? m sid = some prev) :
    ∃ e : SciEntry,
      sciMergeStep m b = assocUpd m sid e
      ∧ e.cap = (match cap with | some c => some c | none => prev.cap)
      ∧ e.sci = some (match (match cap with | some c => some c | none => prev.cap) with
          | some c => min (max (prev.sci.getD 0) (sci.getD (prev.sci.getD 0))) c
          | none => max (prev.sci.getD 0) (sci.getD (prev.sci.getD 0)))
      ∧ e.raw = replaceSci
          (match sci, prev.sci with
           | none, _ => prev.raw
           | some _, none => b
           | some s, some p => if s ≥ p then b else prev.raw)
          (match (match cap with | some c => some c | none => prev.cap) with
           | some c => min (max (prev.sci.getD 0) (sci.getD (prev.sci.getD 0))) c
           | none => max (prev.sci.getD 0) (sci.getD (prev.sci.getD 0))) := by
  have hme : mergedSciEntry b sci cap (some prev)
      = ⟨replaceSci
          (match sci, prev.sci with
           | none, _ => prev.raw
           | some _, none => b
           | some s, some p => if s ≥ p then b else prev.raw)
          (match (match cap with | some c => some c | none => prev.cap) with
           | some c => min (max (prev.sci.getD 0) (sci.getD (prev.sci.getD 0))) c
           | none => max (prev.sci.getD 0) (sci.getD (prev.sci.getD 0))),
         some (match (match cap with | some c => some c | none => prev.cap) with
           | some c => min (max (prev.sci.getD 0) (sci.getD (prev.sci.getD 0))) c
           | none => max (prev.sci.getD 0) (sci.getD (prev.sci.getD 0))),
         (match cap with | some c => some c | none => prev.cap)⟩ := by
    obtain ⟨praw, psci, pcap⟩ := prev
    unfold mergedSciEntry
    rcases sci with _ | s <;> rcases psci with _ | p <;> rcases cap with _ | c <;>
      simp only [Option.getD_some, Option.getD_none, max_self] <;>
      try rfl
    all_goals rw [if_gt_eq_max]
  refine ⟨mergedSciEntry b sci cap (assocFind? m sid),
    sciMergeStep_good m b sid sci cap hp hid, ?_, ?_, ?_⟩
  · rw [hprev, hme]
  · rw [hprev, hme]
  · rw [hprev, hme]

/-- C4 amended witness: the claim's own scenario at the map level —
existing entry `{A, sci=40, cap=50}` and capless upload `{A, sci=60}`
produce the entry `sci=50, cap=50` whose stored block is the rewritten
upload block (which carries no `cap` line). -/
theorem scienceArchives_cap_amended_witness :
    ∃ e : SciEntry,
      sciMergeStep
          [("A", ⟨["Science", "\x7b", "    id = A", "    sci = 40.0",
            "    cap = 50.0", "\x7d"], some 40, some 50⟩)]
          ["Science", "\x7b", "    id = A", "    sci = 60.0", "\x7d"]
        = assocUpd
          [("A", ⟨["Science", "\x7b", "    id = A", "    sci = 40.0",
            "    cap = 50.0", "\x7d"], some 40, some 50⟩)] "A" e
      ∧ e.cap = some 50 ∧ e.sci = some 50
      ∧ e.raw = ["Science", "\x7b", "    id = A", "    sci = 50.0", "\x7d"] := by
  obtain ⟨e, h1, h2, h3, h4⟩ := scienceArchives_cap_amended
    [("A", ⟨["Science", "\x7b", "    id = A", "    sci = 40.0",
      "    cap = 50.0", "\x7d"], some 40, some 50⟩)]
    ["Science", "\x7b", "    id = A", "    sci = 60.0", "\x7d"]
    "A" (some 60) none
    ⟨["Science", "\x7b", "    id = A", "    sci = 40.0", "    cap = 50.0", "\x7d"],
      some 40, some 50⟩
    (by decide) (by decide) (by decide)
  refine ⟨e, h1, ?_, ?_, ?_⟩
  · rw [h2]
  · rw [h3]
    decide
  · rw [h4]
    decide

/-- C5 counterexample: re-uploading data already merged is not a no-op —
after `{A,40,cap50}` absorbs capless `{A,60}` (stored `sci=50`), sending
the same upload again changes the store (`sci` becomes 60); and two
uploads tied on `sci` but differing in another line do not commute, since
the tie keeps the later upload's block. -/
theorem scienceArchives_idem_comm_counterexample :
    (uploadScienceArchives
        (uploadScienceArchives
          ⟨none, none, some ["Science", "\x7b", "    id = A", "    sci = 40.0",
            "    cap = 50.0", "\x7d"]⟩
          "Science\n\x7b\n    id = A\n    sci = 60.0\n\x7d").1
        "Science\n\x7b\n    id = A\n    sci = 60.0\n\x7d").1
      ≠ (uploadScienceArchives
          ⟨none, none, some ["Science", "\x7b", "    id = A", "    sci = 40.0",
            "    cap = 50.0", "\x7d"]⟩
          "Science\n\x7b\n    id = A\n    sci = 60.0\n\x7d").1
    ∧ (uploadScienceArchives
        (uploadScienceArchives SaveState.empty
          "Science\n\x7b\n    id = A\n    sci = 50.0\n    title = X\n\x7d").1
        "Science\n\x7b\n    id = A\n    sci = 50.0\n    title = Y\n\x7d").1
      ≠ (uploadScienceArchives
          (uploadScienceArchives SaveState.empty
            "Science\n\x7b\n    id = A\n    sci = 50.0\n    title = Y\n\x7d").1
          "Science\n\x7b\n    id = A\n    sci = 50.0\n    title = X\n\x7d").1 := by
  constructor
  · decide
  · decide

/-- C5 amended: the stored output does list the merged blocks in
ascending id order; a merge step is a no-op only under fixpoint
conditions (the converged entry dominates the upload, the cap is
unchanged and inactive, and rewriting the winning block reproduces the
stored block byte for byte); and two uploads with distinct ids yield the
same stored output in either order. -/
theorem scienceArchives_merge_amended_props :
    (∀ m : List (String × SciEntry), ∃ ks : List String,
        List.Sorted (· ≤ ·) ks ∧ ks.Perm (m.map Prod.fst)
        ∧ sortedScienceRaws m
          = ks.filterMap (fun k => (assocFind? m k).map SciEntry.raw))
    ∧ (∀ (m : List (String × SciEntry)) (b : List String) (sid : String)
        (s : Rat) (cap : Option Rat) (e : SciEntry) (best : Rat),
        parseScienceBlock b = (some sid, some s, cap) → sid ≠ "" →
        assocFind? m sid = some e →
        e.sci = some best → s ≤ best →
        (cap = none ∨ cap = e.cap) →
        (∀ c : Rat, e.cap = some c → best ≤ c) →
        replaceSci (if s ≥ best then b else e.raw) best = e.raw →
        sciMergeStep m b = m)
    ∧ (∀ (m : List (String × SciEntry)) (b1 b2 : List String)
        (sid1 sid2 : String) (sci1 cap1 sci2 cap2 : Option Rat),
        parseScienceBlock b1 = (some sid1, sci1, cap1) → sid1 ≠ "" →
        parseScienceBlock b2 = (some sid2, sci2, cap2) → sid2 ≠ "" →
        sid1 ≠ sid2 →
        sortedScienceRaws (sciMergeStep (sciMergeStep m b1) b2)
          = sortedScienceRaws (sciMergeStep (sciMergeStep m b2) b1)) := by
  refine ⟨?_, ?_, ?_⟩
  · intro m
    exact ⟨List.insertionSort (· ≤ ·) (m.map Prod.fst),
      List.sorted_insertionSort _ _, List.perm_insertionSort _ _, rfl⟩
  · intro m b sid s cap e best hp hid he hsci hsle hcap hclamp hraw
    rw [sciMergeStep_good m b sid (some s) cap hp hid, he]
    have hme : mergedSciEntry b (some s) cap (some e) = e := by
      obtain ⟨raw, sc, cp⟩ := e
      have hsci' : sc = some best := hsci
      subst hsci'
      have hraw' : replaceSci (if s ≥ best then b else raw) best = raw := hraw
      have hclamp' : ∀ c : Rat, cp = some c → best ≤ c := hclamp
      have hcap' : cap = none ∨ cap = cp := hcap
      unfold mergedSciEntry
      simp only [Option.getD_some]
      rw [if_neg (not_lt.mpr hsle)]
      rcases hcap' with rfl | hcc
      · rcases cp with _ | c
        · show (⟨replaceSci (if s ≥ best then b else raw) best, some best, none⟩ : SciEntry)
            = ⟨raw, some best, none⟩
          rw [hraw']
        · show (⟨replaceSci (if s ≥ best then b else raw) (min best c), some (min best c),
            some c⟩ : SciEntry) = ⟨raw, some best, some c⟩
          rw [min_eq_left (hclamp' c rfl), hraw']
      · rw [hcc]
        rcases cp with _ | c
        · show (⟨replaceSci (if s ≥ best then b else raw) best, some best, none⟩ : SciEntry)
            = ⟨raw, some best, none⟩
          rw [hraw']
        · show (⟨replaceSci (if s ≥ best then b else raw) (min best c), some (min best c),
            some c⟩ : SciEntry) = ⟨raw, some best, some c⟩
          rw [min_eq_left (hclamp' c rfl), hraw']
    rw [hme, assocUpd_self_eq m sid e he]
  · intro m b1 b2 sid1 sid2 sci1 cap1 sci2 cap2 hp1 hid1 hp2 hid2 hne
    rw [sciMergeStep_good m b1 sid1 sci1 cap1 hp1 hid1,
      sciMergeStep_good _ b2 sid2 sci2 cap2 hp2 hid2,
      sciMergeStep_good m b2 sid2 sci2 cap2 hp2 hid2,
      sciMergeStep_good _ b1 sid1 sci1 cap1 hp1 hid1,
      assocFind?_upd_ne m sid1 sid2 _ (fun hh => hne hh.symm),
      assocFind?_upd_ne m sid2 sid1 _ hne]
    exact sortedScienceRaws_congr _ _
      (assocUpd2_keys_perm m sid1 sid2 _ _ hne)
      (assocUpd2_find? m sid1 sid2 _ _ hne)

/-- C5 amended witness: a converged single-entry state absorbs its own
re-upload unchanged, and two uploads with ids `A` and `B` give the same
sorted output in either order. -/
theorem scienceArchives_merge_amended_props_witness :
    sciMergeStep
        [("A", ⟨["Science", "\x7b", "    id = A", "    sci = 50.0", "\x7d"],
          some 50, none⟩)]
        ["Science", "\x7b", "    id = A", "    sci = 50.0", "\x7d"]
      = [("A", ⟨["Science", "\x7b", "    id = A", "    sci = 50.0", "\x7d"],
          some 50, none⟩)]
    ∧ sortedScienceRaws (sciMergeStep (sciMergeStep []
          ["Science", "\x7b", "    id = A", "    sci = 40.0", "\x7d"])
          ["Science", "\x7b", "    id = B", "    sci = 30.0", "\x7d"])
      = sortedScienceRaws (sciMergeStep (sciMergeStep []
          ["Science", "\x7b", "    id = B", "    sci = 30.0", "\x7d"])
          ["Science", "\x7b", "    id = A", "    sci = 40.0", "\x7d"]) := by
  constructor
  · exact scienceArchives_merge_amended_props.2.1 _ _ "A" 50 none
      ⟨["Science", "\x7b", "    id = A", "    sci = 50.0", "\x7d"], some 50, none⟩ 50
      (by decide) (by decide) (by decide) (by decide) (by decide)
      (Or.inl rfl) (fun c hc => Option.noConfusion hc) (by decide)
  · exact scienceArchives_merge_amended_props.2.2 []
      ["Science", "\x7b", "    id = A", "    sci = 40.0", "\x7d"]
      ["Science", "\x7b", "    id = B", "    sci = 30.0", "\x7d"]
      "A" "B" (some 40) none (some 30) none
      (by decide) (by decide) (by decide) (by decide) (by decide)

/-- C6: `_map_union` on two decodable base64 coverage maps zero-extends
the shorter byte array and ORs byte-wise (`mapUnionBytes`, equal to the
positional `orBytes`), so the union is commutative, associative and
idempotent at the string level, every bit set in either input is set in
the result, and folding a body's two blocks in either order yields the
same per-body coverage bitmap. -/
theorem scanCoverage_map_union_algebra (a b c : String) (A B C : List Nat)
    (hA : b64Decode? a = some A) (hB : b64Decode? b = some B)
    (hC : b64Decode? c = some C) (hAB : A ≠ [] ∨ B ≠ []) :
    mapUnion a b = b64Encode (mapUnionBytes A B)
    ∧ mapUnionBytes A B = orBytes A B
    ∧ mapUnion a b = mapUnion b a
    ∧ mapUnion (mapUnion a b) c = mapUnion a (mapUnion b c)
    ∧ mapUnion (mapUnion a b) (mapUnion a b) = mapUnion a b
    ∧ (∀ k i, ((mapUnionBytes A B).getD k 0).testBit i
        = ((A.getD k 0).testBit i || (B.getD k 0).testBit i))
    ∧ (∀ blkA blkB : List String,
        extractMap blkA = a → extractMap blkB = b →
        (blkA.any (fun ln => sStartsWith (sTrim ln) "Map =") = true
          ∨ (blkA.reverse.findIdx? (fun l => sTrim l = "\x7d")).isSome = true) →
        (blkB.any (fun ln => sStartsWith (sTrim ln) "Map =") = true
          ∨ (blkB.reverse.findIdx? (fun l => sTrim l = "\x7d")).isSome = true) →
        b64Decode? (extractMap (foldBodyPair blkA blkB)) = some (orBytes A B)
        ∧ b64Decode? (extractMap (foldBodyPair blkB blkA)) = some (orBytes A B)) := by
  have hab := mapUnion_eq_encode a b A B hA hB
  have hba := mapUnion_eq_encode b a B A hB hA
  have hDab := b64Decode_mapUnion a b A B hA hB
  have hDbc := b64Decode_mapUnion b c B C hB hC
  refine ⟨?_, mapUnionBytes_eq_orBytes A B, ?_, ?_, ?_, ?_, ?_⟩
  · rw [hab, mapUnionBytes_eq_orBytes]
  · rw [hab, hba, orBytes_comm]
  · rw [mapUnion_eq_encode _ c (orBytes A B) C hDab hC,
      mapUnion_eq_encode a _ A (orBytes B C) hA hDbc, orBytes_assoc]
  · rw [mapUnion_eq_encode _ _ _ _ hDab hDab, orBytes_self, hab]
  · intro k i
    rw [mapUnionBytes_eq_orBytes, orBytes_getD, Nat.testBit_or]
  · intro blkA blkB ha hb hcA hcB
    subst ha
    subst hb
    exact ⟨foldBodyPair_bitmap blkA blkB A B hA hB hAB hcA,
      by rw [orBytes_comm]; exact foldBodyPair_bitmap blkB blkA B A hB hA (Or.symm hAB) hcB⟩

/-- C6 witness: maps `AQ==` (byte 1), `Ag==` (byte 2), `BA==` (byte 4):
union is commutative and associative, and folding two concrete
`SCANcontroller` blocks merges their maps to byte 3 = 1 OR 2. -/
theorem scanCoverage_map_union_algebra_witness :
    mapUnion "AQ==" "Ag==" = mapUnion "Ag==" "AQ=="
    ∧ mapUnion (mapUnion "AQ==" "Ag==") "BA==" = mapUnion "AQ==" (mapUnion "Ag==" "BA==")
    ∧ b64Decode? (extractMap (foldBodyPair
        ["SCANcontroller", "\x7b", "    Map = AQ==", "\x7d"]
        ["SCANcontroller", "\x7b", "    Map = Ag==", "\x7d"])) = some [3] := by
  have h := scanCoverage_map_union_algebra "AQ==" "Ag==" "BA==" [1] [2] [4]
    (by decide) (by decide) (by decide) (Or.inl (by decide))
  refine ⟨h.2.2.1, h.2.2.2.1, ?_⟩
  have h7 := (h.2.2.2.2.2.2
    ["SCANcontroller", "\x7b", "    Map = AQ==", "\x7d"]
    ["SCANcontroller", "\x7b", "    Map = Ag==", "\x7d"]
    (by decide) (by decide) (Or.inl (by decide)) (Or.inl (by decide))).1
  rw [show orBytes [1] [2] = [3] from by decide] at h7
  exact h7

/-- C7 counterexample: on a `SCENARIO`-wrapped upload whose `name =
SCANcontroller` line is followed by a further `{`, the normalizer's first
branch fires on the raw substring occurrence of `SCANcontroller` and
returns the surrounding text verbatim — the `scene =` wrapper field is
*not* stripped (and the text is not a well-formed bare block), refuting
the claim that both sides are always canonicalized to a bare block with
`name =` / `scene =` removed. -/
theorem normalize_keeps_scene_counterexample :
    normalizeScansat
        "SCENARIO\n\x7b\n name = SCANcontroller\n scene = 7, 5, 8\n Scanners\n \x7b\n \x7d\n\x7d"
      = "SCANcontroller\n scene = 7, 5, 8\n Scanners\n \x7b\n \x7d\n"
    ∧ ((pyLines (normalizeScansat
        "SCENARIO\n\x7b\n name = SCANcontroller\n scene = 7, 5, 8\n Scanners\n \x7b\n \x7d\n\x7d")).any
        (fun l => sStartsWith (sTrim l) "scene =")) = true := by
  exact ⟨by decide, by decide⟩

/-- C7 amended: the diff/skip behaviour is as claimed — equal normalized
texts answer `UNCHANGED` and leave the stored file untouched, anything
else writes the normalized upload — but normalization returns the text
from the first occurrence of the substring `SCANcontroller` through its
matching brace *verbatim* whenever a `{` follows that occurrence; only
when that search fails is a `SCENARIO` block rewritten with `name =` and
`scene =` lines dropped. -/
theorem scan_upload_guard_amended :
    (∀ old payload, normalizeScansat old = normalizeScansat (sTrim payload) →
      uploadScanController (some old) payload = (some old, .unchanged))
    ∧ (∀ old payload, normalizeScansat old ≠ normalizeScansat (sTrim payload) →
        uploadScanController (some old) payload
          = (some (normalizeScansat (sTrim payload)), .written))
    ∧ (∀ payload, uploadScanController none payload
        = (some (normalizeScansat (sTrim payload)), .written))
    ∧ (∀ s blk k,
        findBlockAt (String.mk (crlfToLf s.toList)) "SCANcontroller" 0 = some (blk, k) →
        normalizeScansat s = ensureNl blk)
    ∧ (∀ scen l, l ∈ scenStripped scen →
        sStartsWith (sTrim l) "name =" = false
        ∧ sStartsWith (sTrim l) "scene =" = false) := by
  refine ⟨?_, ?_, ?_, ?_, ?_⟩
  · intro old payload h
    simp [uploadScanController, h]
  · intro old payload h
    have h' : ¬ normalizeScansat old = normalizeScansat (sTrim payload) := h
    simp [uploadScanController, h']
  · intro payload
    simp [uploadScanController]
  · intro s blk k h
    simp only [normalizeScansat, String.toList] at h ⊢
    rw [h]
  · intro scen l hl
    rw [scenStripped] at hl
    have := (List.mem_filter.mp hl).2
    constructor
    · by_contra hc
      simp only [decide_eq_true_eq] at this
      exact this (Or.inl (by simpa using hc))
    · by_contra hc
      simp only [decide_eq_true_eq] at this
      exact this (Or.inr (by simpa using hc))

/-- C7 amended witness: a stored bare block and a re-upload with junk
after the block normalize identically, so the server answers `UNCHANGED`
and keeps the stored file byte-for-byte; a different upload is written
normalized. -/
theorem scan_upload_guard_amended_witness :
    uploadScanController (some "SCANcontroller\n\x7b\n foo = 1\n\x7d\n")
        "SCANcontroller\n\x7b\n foo = 1\n\x7d\nGARBAGE"
      = (some "SCANcontroller\n\x7b\n foo = 1\n\x7d\n", .unchanged)
    ∧ uploadScanController (some "SCANcontroller\n\x7b\n foo = 1\n\x7d\n")
        "SCANcontroller\n\x7b\n foo = 2\n\x7d"
      = (some "SCANcontroller\n\x7b\n foo = 2\n\x7d\n", .written) := by
  refine ⟨scan_upload_guard_amended.1 "SCANcontroller\n\x7b\n foo = 1\n\x7d\n"
    "SCANcontroller\n\x7b\n foo = 1\n\x7d\nGARBAGE" (by decide), by decide⟩

/-! ## C8: the SciencePoints write path -/

/-- C8: `POST /scenarios/<save>/SciencePoints` stores the parsed value
iff it is strictly greater than the currently stored one (silently
succeeding otherwise), stores unconditionally on first upload or when
the stored value does not parse, and rejects unparsable payloads with a
400 that leaves the whole store untouched. -/
theorem uploadSciencePoints_highWaterMark (st : SaveState) (payload : String) :
    (spPayloadVal? payload = none →
      uploadSciencePoints st payload = (st, .badRequest "Invalid format"))
    ∧ ∀ v, spPayloadVal? payload = some v →
        (uploadSciencePoints st payload).2 = .ok
        ∧ (st.sciencePoints = none →
            (uploadSciencePoints st payload).1 =
              { st with sciencePoints := some (spLine v) })
        ∧ ∀ ls, st.sciencePoints = some ls →
            (readPointsValue? ls = none →
              (uploadSciencePoints st payload).1 =
                { st with sciencePoints := some (spLine v) })
            ∧ ∀ old, readPointsValue? ls = some old →
                (v > old →
                  (uploadSciencePoints st payload).1 =
                    { st with sciencePoints := some (spLine v) })
                ∧ (¬ v > old → (uploadSciencePoints st payload).1 = st) := by
  constructor
  · intro h
    simp [uploadSciencePoints, h]
  · intro v hv
    refine ⟨?_, ?_, ?_⟩
    · cases hsp : st.sciencePoints with
      | none => simp [uploadSciencePoints, hv, hsp]
      | some ls =>
        cases hro : readPointsValue? ls with
        | none => simp [uploadSciencePoints, hv, hsp, hro]
        | some old =>
          by_cases hgt : v > old <;> simp [uploadSciencePoints, hv, hsp, hro, hgt]
    · intro hsp
      simp [uploadSciencePoints, hv, hsp]
    · intro ls hsp
      constructor
      · intro hro
        simp [uploadSciencePoints, hv, hsp, hro]
      · intro old hro
        constructor
        · intro hgt
          simp [uploadSciencePoints, hv, hsp, hro, hgt]
        · intro hle
          simp [uploadSciencePoints, hv, hsp, hro, hle]

/-- C8 witness: a concrete store at 42.5; uploading 43 overwrites it and
uploading 40 is discarded with success. -/
theorem uploadSciencePoints_highWaterMark_witness :
    spPayloadVal? "sci = 43" = some (mkRat 43 1)
    ∧ readPointsValue? ["sci = 42.5"] = some (mkRat 85 2)
    ∧ (uploadSciencePoints ⟨none, some ["sci = 42.5"], none⟩ "sci = 43").1 =
        ⟨none, some ["sci = 43.0"], none⟩
    ∧ (uploadSciencePoints ⟨none, some ["sci = 42.5"], none⟩ "sci = 40").1 =
        ⟨none, some ["sci = 42.5"], none⟩ := by
  have h43 := (uploadSciencePoints_highWaterMark ⟨none, some ["sci = 42.5"], none⟩
    "sci = 43").2 (mkRat 43 1) (by decide)
  have h40 := (uploadSciencePoints_highWaterMark ⟨none, some ["sci = 42.5"], none⟩
    "sci = 40").2 (mkRat 40 1) (by decide)
  refine ⟨by decide, by decide, ?_, ?_⟩
  · have := (((h43.2.2 ["sci = 42.5"] rfl).2 (mkRat 85 2) (by decide)).1 (by decide))
    rw [this]
    exact congrArg (fun l => SaveState.mk none (some l) none) (by decide)
  · exact ((h40.2.2 ["sci = 42.5"] rfl).2 (mkRat 85 2) (by decide)).2 (by decide)

/-! ## C9: vote quorum and cast -/

/-- C9: `vote_start` sets the quorum to 1 when at most one user is online
and 2 otherwise; a cast into a missing or closed session is rejected with
the 400 `'No open vote'`; a cast into an open session records/overwrites
the caster's ballot and closes the session exactly when the number of
distinct ballot-casters reaches the quorum, with
`approved = (yes > no)` so that ties reject. -/
theorem vote_quorum_and_cast_spec :
    (∀ (n : Nat) req title cost,
      ((n ≤ 1 → (voteStart n req title cost).quorum = 1)
        ∧ (1 < n → (voteStart n req title cost).quorum = 2))
        ∧ (voteStart n req title cost).closed = false
        ∧ (voteStart n req title cost).votes = [])
    ∧ (∀ u v, voteCast none u v = (none, .noOpenVote))
    ∧ (∀ s u v, s.closed = true → voteCast (some s) u v = (some s, .noOpenVote))
    ∧ ∀ s u v, s.closed = false →
        (voteCast (some s) u v).2 = .ok
        ∧ (let votes := assocUpd s.votes u v
          assocFind? votes u = some v
          ∧ (∀ u', u' ≠ u → assocFind? votes u' = assocFind? s.votes u')
          ∧ yesCount votes + noCount votes = votes.length
          ∧ (votes.length < s.quorum →
              (voteCast (some s) u v).1 = some { s with votes := votes })
          ∧ (votes.length ≥ s.quorum →
              (voteCast (some s) u v).1 =
                some { s with votes := votes, closed := true,
                              approved := some (decide (yesCount votes > noCount votes)) })
          ∧ (yesCount votes = noCount votes →
              decide (yesCount votes > noCount votes) = false)) := by
  refine ⟨?_, ?_, ?_, ?_⟩
  · intro n req title cost
    refine ⟨⟨?_, ?_⟩, rfl, rfl⟩
    · intro h; simp [voteStart, h]
    · intro h; simp [voteStart, Nat.not_le.mpr h]
  · intro u v; rfl
  · intro s u v h; simp [voteCast, h]
  · intro s u v h
    have hlen := yesCount_add_noCount (assocUpd s.votes u v)
    refine ⟨?_, assocFind?_upd_self _ _ _,
      fun u' hu' => assocFind?_upd_ne _ _ _ _ hu', hlen, ?_, ?_, ?_⟩
    · by_cases hq : yesCount (assocUpd s.votes u v) + noCount (assocUpd s.votes u v) ≥ s.quorum <;>
        simp [voteCast, h, hq]
    · intro hlt
      have hq : ¬ (yesCount (assocUpd s.votes u v) + noCount (assocUpd s.votes u v) ≥ s.quorum) := by
        omega
      simp [voteCast, h, hq]
    · intro hge
      have hq : yesCount (assocUpd s.votes u v) + noCount (assocUpd s.votes u v) ≥ s.quorum := by
        omega
      simp [voteCast, h, hq]
    · intro heq
      simp [heq]

/-- C9 witness: one online user gives quorum 1 and a single yes closes
approved; with quorum 2 a yes and a no close as rejected (tie), and a
further cast is rejected. -/
theorem vote_quorum_and_cast_spec_witness :
    (voteStart 1 "alice" "t" 0).quorum = 1
    ∧ (voteStart 3 "alice" "t" 0).quorum = 2
    ∧ voteCast (voteCast (voteCast (some (voteStart 3 "alice" "t" 0)) "alice" true).1
        "bob" false).1 "carol" true
        = (some ⟨"t", "alice", 0, [("alice", true), ("bob", false)], true, some false, 2⟩,
            .noOpenVote) := by
  have h1 := (vote_quorum_and_cast_spec.1 1 "alice" "t" 0).1.1 (by decide)
  have h3 := (vote_quorum_and_cast_spec.1 3 "alice" "t" 0).1.2 (by decide)
  have hc := vote_quorum_and_cast_spec.2.2.1
    ⟨"t", "alice", 0, [("alice", true), ("bob", false)], true, some false, 2⟩ "carol" true rfl
  exact ⟨h1, h3, by rw [show (voteCast (voteCast (some (voteStart 3 "alice" "t" 0)) "alice" true).1
    "bob" false).1 = some ⟨"t", "alice", 0, [("alice", true), ("bob", false)], true, some false, 2⟩
    from by decide, hc]⟩

/-! ## C10: vote terminality after close -/

/-- C10 counterexample: with one user online, `alice` starts and casts a
yes, closing the session `approved = true`; her own later `cancel` call
still mutates the closed session and flips `approved` to `false`, so the
claimed terminality of `approved` is violated by the code. -/
theorem vote_cancel_flips_closed_approval :
    (voteCast (some (voteStart 1 "alice" "t" 0)) "alice" true).1
      = some ⟨"t", "alice", 0, [("alice", true)], true, some true, 1⟩
    ∧ voteCancel (some ⟨"t", "alice", 0, [("alice", true)], true, some true, 1⟩) "alice"
      = some ⟨"t", "alice", 0, [("alice", true)], true, some false, 1⟩ := by
  exact ⟨by decide, by decide⟩

/-- C10 amended: once a session is closed, every `cast` is rejected with
the 400 `'No open vote'` and mutates nothing, and every `cancel` by a
non-requester mutates nothing — so `approved` survives any sequence of
such operations; the one exception the code allows is a `cancel` by the
original requester, which forces `approved = false` even on a closed
session. -/
theorem vote_closed_terminal (s : VoteSession) (hc : s.closed = true)
    (ops : List VoteOp)
    (hops : ∀ u, VoteOp.cancel u ∈ ops → u ≠ s.requester) :
    applyVoteOps (some s) ops = some s
    ∧ (∀ u v, voteCast (some s) u v = (some s, .noOpenVote))
    ∧ (∀ u, u ≠ s.requester → voteCancel (some s) u = some s)
    ∧ voteCancel (some s) s.requester =
        some { s with closed := true, approved := some false } := by
  have hcast : ∀ u v, voteCast (some s) u v = (some s, .noOpenVote) := by
    intro u v; simp [voteCast, hc]
  have hcancel : ∀ u, u ≠ s.requester → voteCancel (some s) u = some s := by
    intro u hu; simp [voteCancel, hu]
  refine ⟨?_, hcast, hcancel, by simp [voteCancel]⟩
  induction ops with
  | nil => rfl
  | cons op ops ih =>
    have hop : applyVoteOp (some s) op = some s := by
      cases op with
      | cast u v => simp [applyVoteOp, hcast]
      | cancel u => simpa [applyVoteOp] using hcancel u (hops u (by simp))
    calc applyVoteOps (some s) (op :: ops)
        = applyVoteOps (applyVoteOp (some s) op) ops := rfl
      _ = applyVoteOps (some s) ops := by rw [hop]
      _ = some s := ih (fun u hu => hops u (by simp [hu]))

/-- C10 amended witness: a concrete closed session survives a late cast
and a stranger's cancel unchanged. -/
theorem vote_closed_terminal_witness :
    applyVoteOps (some ⟨"t", "alice", 0, [("alice", true)], true, some true, 1⟩)
        [.cast "bob" false, .cancel "bob"]
      = some ⟨"t", "alice", 0, [("alice", true)], true, some true, 1⟩ := by
  exact (vote_closed_terminal ⟨"t", "alice", 0, [("alice", true)], true, some true, 1⟩
    rfl [.cast "bob" false, .cancel "bob"]
    (by intro u hu; simp at hu; subst hu; decide)).1

end SimpleMultiplayer
